import Mathlib

/-!
minimal-views: lazily filtered views over a borrowed `std::vector`.

Shallow embedding of `src/ranges.cpp`.

* The caller's vector is the list `S`; a `std::vector<T>::const_iterator` is a
  position in it.
* A view object lives at an address (`Addr`); the member `m_view` of the object
  at `a` lives at `a.member`.  A `filter_view<View>::iterator` carries, as in
  the source, the upstream iterator `m_iter` and the raw back-pointer `m_view`
  to its owning `filter_view`.  Following a back-pointer is a lookup in the
  object that is being operated on (`Heap.deref`); a pointer that designates
  nothing there (a stale pointer) makes the operation fail (`none`).
* Every call of a predicate `m_pred` is recorded in a trace, together with the
  address of the `filter_view` whose predicate was called.
* `while` and `for` loops run on fuel `S.length + 1`; running out of fuel is
  reported as `none`.
-/

namespace MinimalViews

/-! ## Data model -/

/-- Address of a view object: the storage it is rooted in (a variable or a
temporary) and how many `m_view` members deep it sits in that storage. -/
structure Addr where
  root : Nat
  depth : Nat
  deriving DecidableEq, Repr

/-- Address of the member `m_view` of the object at `a`. -/
def Addr.member (a : Addr) : Addr := ⟨a.root, a.depth + 1⟩

/-- Iterators of the library.  `vec i` is a `std::vector<T>::const_iterator`
(the iterator type of the borrowing `all_view`); `filt m_iter m_view` is a
`filter_view<View>::iterator` (lines 116-166).  The owning `all_view<V>` uses
`V::iterator` itself (line 62). -/
inductive iterator where
  | vec (i : Nat)
  | filt (m_iter : iterator) (m_view : Addr)
  deriving DecidableEq, Repr

/-- The three view classes: the borrowing `all_view<R>` (lines 32-53; its
`m_range` is the reference to the caller's vector `S`), the owning
`all_view<V>` (lines 55-97) and `filter_view<View>` (lines 103-215). -/
inductive view (α : Type) where
  | all_view_ref (m_begin m_end : iterator)
  | all_view (m_view : view α) (m_begin m_end : iterator)
  | filter_view (m_view : view α) (m_pred : α → Bool) (m_begin m_end : iterator)

/-- Record of the predicate calls made by an operation, oldest first: the
address of the `filter_view` whose `m_pred` was called, and the argument. -/
abbrev Trace (α : Type) := List (Addr × α)

/-- The object an operation works on, with its address: what back-pointers are
resolved against. -/
structure Heap (α : Type) where
  base : Addr
  obj : view α

/-- The object `n` `m_view` members below `V`. -/
def view.sub {α : Type} : Nat → view α → Option (view α)
  | 0, V => some V
  | _ + 1, .all_view_ref _ _ => none
  | n + 1, .all_view m_view _ _ => view.sub n m_view
  | n + 1, .filter_view m_view _ _ _ => view.sub n m_view

/-- Follow a pointer to a view object. -/
def Heap.deref {α : Type} (H : Heap α) (p : Addr) : Option (view α) :=
  if p.root = H.base.root ∧ H.base.depth ≤ p.depth then
    H.obj.sub (p.depth - H.base.depth)
  else none

/-! ## Iterator operations -/

/-- `operator==` (lines 153-155): filter iterators compare their `m_iter`;
vector iterators compare positions. -/
def iterator.eq : iterator → iterator → Bool
  | .vec i, .vec j => i == j
  | .filt a _, .filt b _ => iterator.eq a b
  | _, _ => false

/-- `operator*` (lines 133-135): `*m_iter`, down to the vector element. -/
def iterator.deref {α : Type} (S : List α) : iterator → Option α
  | .vec i => S[i]?
  | .filt m_iter _ => iterator.deref S m_iter

/-- Number of `filter_view` iterator layers: the static type of the iterator. -/
def iterator.depth : iterator → Nat
  | .vec _ => 0
  | .filt m_iter _ => m_iter.depth + 1

/-- `end()` / `cend()` of every view class: the stored `m_end`
(lines 48, 93, 207, 213). -/
def view.cend {α : Type} : view α → iterator
  | .all_view_ref _ m_end => m_end
  | .all_view _ _ m_end => m_end
  | .filter_view _ _ _ m_end => m_end

/-- The `while` loop of `filter_view<View>::iterator::operator++`
(lines 137-144), generic in the upstream `operator++`.  `m_view` is the
back-pointer of the iterator that is advanced, `m_iter` its upstream iterator. -/
def filter_view.iterator.incr_loop {α : Type} (S : List α) (H : Heap α)
    (upstream_incr : iterator → Option (iterator × Trace α)) (m_view : Addr) :
    Nat → iterator → Option (iterator × Trace α)
  | 0, _ => none
  | fuel + 1, m_iter =>
    match H.deref m_view with
    | some (.filter_view up m_pred _ _) =>
      if m_iter.eq up.cend then some (m_iter, [])
      else
        match upstream_incr m_iter with
        | none => none
        | some (it, t) =>
          if it.eq up.cend then
            (filter_view.iterator.incr_loop S H upstream_incr m_view fuel it).map
              (fun r => (r.1, t ++ r.2))
          else
            match it.deref S with
            | none => none
            | some x =>
              if m_pred x then some (it, t ++ [(m_view, x)])
              else
                (filter_view.iterator.incr_loop S H upstream_incr m_view fuel it).map
                  (fun r => (r.1, t ++ (m_view, x) :: r.2))
    | _ => none

/-- Pre-increment of an iterator whose static type has `d` filter layers:
the vector iterator steps to the next position (advancing the end iterator is
undefined), a filter iterator runs the loop of lines 137-144 on its `m_iter`. -/
def iterator.incr_at {α : Type} (S : List α) (H : Heap α) :
    Nat → iterator → Option (iterator × Trace α)
  | 0, .vec i => if i < S.length then some (.vec (i + 1), []) else none
  | d + 1, .filt m_iter m_view =>
    match filter_view.iterator.incr_loop S H (iterator.incr_at S H d) m_view
        (S.length + 1) m_iter with
    | some (it, t) => some (.filt it m_view, t)
    | none => none
  | _, _ => none

/-- `operator++` (pre-increment). -/
def iterator.incr {α : Type} (S : List α) (H : Heap α) (it : iterator) :
    Option (iterator × Trace α) :=
  iterator.incr_at S H it.depth it

/-! ## View operations -/

/-- `begin()` / `cbegin()`.  Both `all_view`s return the cached `m_begin`
(lines 47, 92).  `filter_view::cbegin` (lines 206-212) first catches up:
`if ((m_begin != m_end) and not(m_pred(*m_begin))) ++m_begin;` and so may
change the view.  Returns the iterator, the view afterwards and the trace. -/
def view.cbegin {α : Type} (S : List α) (this : Addr) :
    view α → Option (iterator × view α × Trace α)
  | .all_view_ref m_begin m_end => some (m_begin, .all_view_ref m_begin m_end, [])
  | .all_view m_view m_begin m_end => some (m_begin, .all_view m_view m_begin m_end, [])
  | .filter_view m_view m_pred m_begin m_end =>
    if m_begin.eq m_end then
      some (m_begin, .filter_view m_view m_pred m_begin m_end, [])
    else
      match m_begin.deref S with
      | none => none
      | some x =>
        if m_pred x then
          some (m_begin, .filter_view m_view m_pred m_begin m_end, [(this, x)])
        else
          match m_begin.incr S ⟨this, .filter_view m_view m_pred m_begin m_end⟩ with
          | none => none
          | some (it, t) =>
            some (it, .filter_view m_view m_pred it m_end, (this, x) :: t)

/-- Move constructors, building the new object at address `this` from `rhs`.
The borrowing `all_view` has the implicit member-wise one; the owning
`all_view` (lines 70-75) and `filter_view` (lines 182-188) move the upstream
view into their own `m_view` and derive `m_begin`, `m_end` from it. -/
def view.move_ctor {α : Type} (S : List α) : Addr → view α → Option (view α × Trace α)
  | _, .all_view_ref m_begin m_end => some (.all_view_ref m_begin m_end, [])
  | this, .all_view rhs_view _ _ =>
    match view.move_ctor S this.member rhs_view with
    | none => none
    | some (m_view, t₁) =>
      match m_view.cbegin S this.member with
      | none => none
      | some (m_begin, m_view, t₂) => some (.all_view m_view m_begin m_view.cend, t₁ ++ t₂)
  | this, .filter_view rhs_view rhs_pred _ _ =>
    match view.move_ctor S this.member rhs_view with
    | none => none
    | some (m_view, t₁) =>
      match m_view.cbegin S this.member with
      | none => none
      | some (b, m_view, t₂) =>
        some (.filter_view m_view rhs_pred (.filt b this) (.filt m_view.cend this), t₁ ++ t₂)

/-- What can stand on the left of `operator|`: the caller's vector (an lvalue,
borrowed) or a view rvalue (adopted). -/
inductive range (α : Type) where
  | vector
  | rvalue (V : view α)

/-- Constructors `all_view(T&& r)`.  For the vector, lines 42-45: keep the
reference and cache `cbegin()`, `cend()`.  For a view, lines 64-66:
`m_view{ std::forward<T>(r) }, m_begin{ m_view.begin() }, m_end{ m_view.end() }`. -/
def all_view.ctor {α : Type} (S : List α) (this : Addr) :
    range α → Option (view α × Trace α)
  | .vector => some (.all_view_ref (.vec 0) (.vec S.length), [])
  | .rvalue r =>
    match view.move_ctor S this.member r with
    | none => none
    | some (m_view, t₁) =>
      match m_view.cbegin S this.member with
      | none => none
      | some (m_begin, m_view, t₂) => some (.all_view m_view m_begin m_view.cend, t₁ ++ t₂)

/-- Constructor `filter_view(V&& v, pred_t f)` (lines 170-178), `v` an rvalue. -/
def filter_view.ctor {α : Type} (S : List α) (this : Addr) (v : view α) (f : α → Bool) :
    Option (view α × Trace α) :=
  match view.move_ctor S this.member v with
  | none => none
  | some (m_view, t₁) =>
    match m_view.cbegin S this.member with
    | none => none
    | some (b, m_view, t₂) =>
      some (.filter_view m_view f (.filt b this) (.filt m_view.cend this), t₁ ++ t₂)

/-- The adaptor factory `filter_fn<Pred>` (lines 221-244). -/
structure filter_fn (α : Type) where
  m_func : α → Bool

/-- The factory function `filter(p)` (lines 246-249). -/
def filter {α : Type} (p : α → Bool) : filter_fn α := ⟨p⟩

/-- `filter_fn::operator()` (lines 228-232):
`filter_view<all_view<R>>{ all_view<R>{ std::forward<R>(v) }, m_func }`.
The temporary `all_view` is built at `tmp`, the result at `ret`. -/
def filter_fn.call {α : Type} (fn : filter_fn α) (S : List α) (tmp ret : Addr)
    (v : range α) : Option (view α × Trace α) :=
  match all_view.ctor S tmp v with
  | none => none
  | some (a, t₁) =>
    match filter_view.ctor S ret a fn.m_func with
    | none => none
    | some (f, t₂) => some (f, t₁ ++ t₂)

/-- `operator|` (lines 240-243): `r | fn` is `fn(std::forward<R>(r))`. -/
def pipe {α : Type} (S : List α) (tmp ret : Addr) (r : range α) (fn : filter_fn α) :
    Option (view α × Trace α) :=
  fn.call S tmp ret r

/-! ## Traversal -/

/-- The loop `for (; it != end; ++it) { auto i = *it; ... }` of a range-based
`for` (lines 265-267), collecting the elements it visits. -/
def for_loop {α : Type} (S : List α) (H : Heap α) (e : iterator) :
    Nat → iterator → Option (List α × Trace α)
  | 0, _ => none
  | fuel + 1, it =>
    if it.eq e then some ([], [])
    else
      match it.deref S with
      | none => none
      | some x =>
        match it.incr S H with
        | none => none
        | some (it, t) =>
          match for_loop S H e fuel it with
          | none => none
          | some (xs, t₂) => some (x :: xs, t ++ t₂)

/-- A full traversal of the view `V` that lives at `this`: `begin()` once,
`end()`, then the loop.  Returns the elements, the view afterwards and the
trace of predicate calls. -/
def traverse {α : Type} (S : List α) (this : Addr) (V : view α) :
    Option (List α × view α × Trace α) :=
  match V.cbegin S this with
  | none => none
  | some (b, V, t₁) =>
    match for_loop S ⟨this, V⟩ V.cend (S.length + 1) b with
    | none => none
    | some (xs, t₂) => some (xs, V, t₁ ++ t₂)

/-- The chain `r | filter(p₁) | ... | filter(pₙ)`, the stage numbered `k`
building its temporary `all_view` in storage `2k + 1` and its result in
storage `2k + 2`. -/
def chain_from {α : Type} (S : List α) : Nat → range α → List (α → Bool) →
    Option (range α × Trace α)
  | _, r, [] => some (r, [])
  | k, r, p :: ps =>
    match pipe S ⟨2 * k + 1, 0⟩ ⟨2 * k + 2, 0⟩ r (filter p) with
    | none => none
    | some (V, t₁) =>
      match chain_from S (k + 1) (.rvalue V) ps with
      | none => none
      | some (r, t₂) => some (r, t₁ ++ t₂)

/-- The view `S | filter(p) | filter(p₁) | ... | filter(pₙ)` with the trace of
the predicate calls made while it is built; it lives in storage
`2 * (n + 1)`. -/
def chain {α : Type} (S : List α) (p : α → Bool) (ps : List (α → Bool)) :
    Option (view α × Trace α) :=
  match chain_from S 0 .vector (p :: ps) with
  | some (.rvalue V, t) => some (V, t)
  | _ => none

/-- Where the view built by `chain S p ps` lives. -/
def chain_addr {α : Type} (ps : List (α → Bool)) : Addr := ⟨2 * (ps.length + 1), 0⟩

/-- Elements seen by traversing the view built by `chain S p ps`. -/
def chain_elems {α : Type} (S : List α) (p : α → Bool) (ps : List (α → Bool)) :
    Option (List α) :=
  match chain S p ps with
  | none => none
  | some (V, _) => (traverse S (chain_addr ps) V).map (fun r => r.1)


/-- The elements a full traversal of `V` visits. -/
def elems {α : Type} (S : List α) (this : Addr) (V : view α) : Option (List α) :=
  (traverse S this V).map (fun r => r.1)

/-- Pre-increment applied `n` times in a row (`++it; ++it; ...`). -/
def iterator.incr_n {α : Type} (S : List α) (H : Heap α) : Nat → iterator → Option iterator
  | 0, it => some it
  | n + 1, it =>
    match it.incr S H with
    | none => none
    | some (it, _) => iterator.incr_n S H n it

/-! ## The same operations with the vector as memory

Every operation takes the vector as it is in memory when the operation starts
and returns, with its result, the vector as the operation leaves it.  The
library touches the vector through three calls only: `cbegin()` and `cend()`
on `R const& m_range` (line 43) and `*it` on a `const_iterator` (line 134,
reached from lines 140, 209 and from the traversing loop). -/

/-- `std::vector::cbegin() const` on the borrowed vector (line 43). -/
def vector.cbegin {α : Type} (v : List α) : iterator × List α := (.vec 0, v)

/-- `std::vector::cend() const` on the borrowed vector (line 43). -/
def vector.cend {α : Type} (v : List α) : iterator × List α := (.vec v.length, v)

/-- `*it` for a `std::vector<T>::const_iterator` at position `i`: a load.
Past the last element it is undefined (`none`). -/
def vector.load {α : Type} (v : List α) (i : Nat) : Option (α × List α) :=
  match v[i]? with
  | none => none
  | some x => some (x, v)

/-- `operator*` (lines 133-135) with the vector as memory. -/
def Store.deref {α : Type} (v : List α) : iterator → Option (α × List α)
  | .vec i => vector.load v i
  | .filt m_iter _ => Store.deref v m_iter

/-- The loop of `operator++` (lines 137-144) with the vector as memory. -/
def Store.incr_loop {α : Type} (H : Heap α)
    (upstream_incr : List α → iterator → Option ((iterator × Trace α) × List α))
    (m_view : Addr) : Nat → List α → iterator → Option ((iterator × Trace α) × List α)
  | 0, _, _ => none
  | fuel + 1, v, m_iter =>
    match H.deref m_view with
    | some (.filter_view up m_pred _ _) =>
      if m_iter.eq up.cend then some ((m_iter, []), v)
      else
        match upstream_incr v m_iter with
        | none => none
        | some ((it, t), v) =>
          if it.eq up.cend then
            (Store.incr_loop H upstream_incr m_view fuel v it).map
              (fun r => ((r.1.1, t ++ r.1.2), r.2))
          else
            match Store.deref v it with
            | none => none
            | some (x, v) =>
              if m_pred x then some ((it, t ++ [(m_view, x)]), v)
              else
                (Store.incr_loop H upstream_incr m_view fuel v it).map
                  (fun r => ((r.1.1, t ++ (m_view, x) :: r.1.2), r.2))
    | _ => none

/-- Pre-increment of an iterator with `d` filter layers, with the vector as
memory. -/
def Store.incr_at {α : Type} (H : Heap α) :
    Nat → List α → iterator → Option ((iterator × Trace α) × List α)
  | 0, v, .vec i => if i < v.length then some ((.vec (i + 1), []), v) else none
  | d + 1, v, .filt m_iter m_view =>
    match Store.incr_loop H (Store.incr_at H d) m_view (v.length + 1) v m_iter with
    | some ((it, t), v) => some ((.filt it m_view, t), v)
    | none => none
  | _, _, _ => none

/-- `operator++` with the vector as memory. -/
def Store.incr {α : Type} (H : Heap α) (v : List α) (it : iterator) :
    Option ((iterator × Trace α) × List α) :=
  Store.incr_at H it.depth v it

/-- `begin()` / `cbegin()` (lines 47, 92, 206-212) with the vector as memory. -/
def Store.cbegin {α : Type} (this : Addr) :
    List α → view α → Option ((iterator × view α × Trace α) × List α)
  | v, .all_view_ref m_begin m_end => some ((m_begin, .all_view_ref m_begin m_end, []), v)
  | v, .all_view m_view m_begin m_end =>
    some ((m_begin, .all_view m_view m_begin m_end, []), v)
  | v, .filter_view m_view m_pred m_begin m_end =>
    if m_begin.eq m_end then
      some ((m_begin, .filter_view m_view m_pred m_begin m_end, []), v)
    else
      match Store.deref v m_begin with
      | none => none
      | some (x, v) =>
        if m_pred x then
          some ((m_begin, .filter_view m_view m_pred m_begin m_end, [(this, x)]), v)
        else
          match Store.incr ⟨this, .filter_view m_view m_pred m_begin m_end⟩ v m_begin with
          | none => none
          | some ((it, t), v) =>
            some ((it, .filter_view m_view m_pred it m_end, (this, x) :: t), v)

/-- The move constructors (implicit, lines 70-75, lines 182-188) with the
vector as memory. -/
def Store.move_ctor {α : Type} :
    Addr → List α → view α → Option ((view α × Trace α) × List α)
  | _, v, .all_view_ref m_begin m_end => some ((.all_view_ref m_begin m_end, []), v)
  | this, v, .all_view rhs_view _ _ =>
    match Store.move_ctor this.member v rhs_view with
    | none => none
    | some ((m_view, t₁), v) =>
      match Store.cbegin this.member v m_view with
      | none => none
      | some ((m_begin, m_view, t₂), v) =>
        some ((.all_view m_view m_begin m_view.cend, t₁ ++ t₂), v)
  | this, v, .filter_view rhs_view rhs_pred _ _ =>
    match Store.move_ctor this.member v rhs_view with
    | none => none
    | some ((m_view, t₁), v) =>
      match Store.cbegin this.member v m_view with
      | none => none
      | some ((b, m_view, t₂), v) =>
        some ((.filter_view m_view rhs_pred (.filt b this) (.filt m_view.cend this),
          t₁ ++ t₂), v)

/-- The constructors `all_view(T&& r)` (lines 42-45 for the vector, lines 64-66
for a view) with the vector as memory. -/
def Store.all_view_ctor {α : Type} (this : Addr) :
    List α → range α → Option ((view α × Trace α) × List α)
  | v, .vector =>
    match vector.cbegin v with
    | (m_begin, v) =>
      match vector.cend v with
      | (m_end, v) => some ((.all_view_ref m_begin m_end, []), v)
  | v, .rvalue r =>
    match Store.move_ctor this.member v r with
    | none => none
    | some ((m_view, t₁), v) =>
      match Store.cbegin this.member v m_view with
      | none => none
      | some ((m_begin, m_view, t₂), v) =>
        some ((.all_view m_view m_begin m_view.cend, t₁ ++ t₂), v)

/-- The constructor `filter_view(V&& v, pred_t f)` (lines 170-178) with the
vector `mem` as memory. -/
def Store.filter_view_ctor {α : Type} (this : Addr) (mem : List α) (v : view α)
    (f : α → Bool) : Option ((view α × Trace α) × List α) :=
  match Store.move_ctor this.member mem v with
  | none => none
  | some ((m_view, t₁), mem) =>
    match Store.cbegin this.member mem m_view with
    | none => none
    | some ((b, m_view, t₂), mem) =>
      some ((.filter_view m_view f (.filt b this) (.filt m_view.cend this), t₁ ++ t₂), mem)

/-- `operator|` and `filter_fn::operator()` (lines 228-243) with the vector as
memory. -/
def Store.pipe {α : Type} (tmp ret : Addr) (v : List α) (r : range α) (fn : filter_fn α) :
    Option ((view α × Trace α) × List α) :=
  match Store.all_view_ctor tmp v r with
  | none => none
  | some ((a, t₁), v) =>
    match Store.filter_view_ctor ret v a fn.m_func with
    | none => none
    | some ((f, t₂), v) => some ((f, t₁ ++ t₂), v)

/-- The chain `r | filter(p₁) | ... | filter(pₙ)` with the vector as memory,
stage `k` using storage `2k + 1` and `2k + 2` as in `chain_from`. -/
def Store.chain_from {α : Type} :
    Nat → List α → range α → List (α → Bool) → Option ((range α × Trace α) × List α)
  | _, v, r, [] => some ((r, []), v)
  | k, v, r, p :: ps =>
    match Store.pipe ⟨2 * k + 1, 0⟩ ⟨2 * k + 2, 0⟩ v r (filter p) with
    | none => none
    | some ((V, t₁), v) =>
      match Store.chain_from (k + 1) v (.rvalue V) ps with
      | none => none
      | some ((r, t₂), v) => some ((r, t₁ ++ t₂), v)

/-- The loop of the range-based `for` (lines 265-267) with the vector as
memory. -/
def Store.for_loop {α : Type} (H : Heap α) (e : iterator) :
    Nat → List α → iterator → Option ((List α × Trace α) × List α)
  | 0, _, _ => none
  | fuel + 1, v, it =>
    if it.eq e then some (([], []), v)
    else
      match Store.deref v it with
      | none => none
      | some (x, v) =>
        match Store.incr H v it with
        | none => none
        | some ((it, t), v) =>
          match Store.for_loop H e fuel v it with
          | none => none
          | some ((xs, t₂), v) => some ((x :: xs, t ++ t₂), v)

/-- A full traversal (`begin()`, `end()`, the loop) with the vector as memory. -/
def Store.traverse {α : Type} (this : Addr) (v : List α) (V : view α) :
    Option ((List α × view α × Trace α) × List α) :=
  match Store.cbegin this v V with
  | none => none
  | some ((b, V, t₁), v) =>
    match Store.for_loop ⟨this, V⟩ V.cend (v.length + 1) v b with
    | none => none
    | some ((xs, t₂), v) => some ((xs, V, t₁ ++ t₂), v)

/-- State of a program shaped like `main` (lines 251-267) when it has finished:
the caller's vector `v` as it then is in memory, the view `ppp` built over it,
and the elements the loop has seen. -/
structure Program (α : Type) where
  v : List α
  ppp : view α
  out : List α

/-- The program of lines 251-267 started with the vector `v` in memory: build
`v | filter(p) | filter(ps₁) | ...` into `ppp`, then run the loop over `ppp`;
the vector of the final state is the memory the last operation left. -/
def run_main {α : Type} (v : List α) (p : α → Bool) (ps : List (α → Bool)) :
    Option (Program α) :=
  match Store.chain_from 0 v .vector (p :: ps) with
  | some ((.rvalue ppp, _), v) =>
    match Store.traverse (chain_addr ps) v ppp with
    | none => none
    | some ((out, ppp, _), v) => some ⟨v, ppp, out⟩
  | _ => none

/-- The sample sequence of the demonstration program: the integers 1 to 20. -/
def S20 : List Int := [1, 2, 3, 4, 5, 6, 7, 8, 9, 10, 11, 12, 13, 14, 15, 16, 17, 18, 19, 20]

/-! ## Specification vocabulary -/

/-- All predicates of the list hold of `x`. -/
def allp {α : Type} (qs : List (α → Bool)) (x : α) : Bool := qs.all (fun q => q x)

/-- Least position `j ≥ i` of `S` whose element satisfies `p`; `S.length` when
there is none (for `i ≤ S.length`). -/
def seek {α : Type} (p : α → Bool) (S : List α) (i : Nat) : Nat := i + (S.drop i).findIdx p

/-- Predicates of the filter stages of a view, outermost first. -/
def view.preds {α : Type} : view α → List (α → Bool)
  | .all_view_ref _ _ => []
  | .all_view m_view _ _ => m_view.preds
  | .filter_view m_view m_pred _ _ => m_pred :: m_view.preds

/-- The iterator of the view `V` living at `a` that stands at position `i` of
the vector, with every back-pointer designating the filter stage of `V` it
belongs to. -/
def itOf {α : Type} : Addr → view α → Nat → iterator
  | _, .all_view_ref _ _, i => .vec i
  | a, .all_view m_view _ _, i => itOf a.member m_view i
  | a, .filter_view m_view _ _ _, i => .filt (itOf a.member m_view i) a

/-- Class invariant of a view object living at address `a` over the vector `S`:
`m_end` is the end position, every cached iterator is one of the object itself
(back-pointers into the object, not elsewhere), the cached `m_begin` of an
owning `all_view` is what `begin()` of the owned view returns, and `m_begin` of
a `filter_view` is at or before the first element that passes all stages, on
an element that passes the upstream stages. -/
def WF {α : Type} (S : List α) : Addr → view α → Prop
  | _, .all_view_ref m_begin m_end => m_begin = .vec 0 ∧ m_end = .vec S.length
  | a, .all_view m_view m_begin m_end =>
    WF S a.member m_view ∧
    m_begin = itOf a.member m_view (seek (allp m_view.preds) S 0) ∧
    m_end = itOf a.member m_view S.length
  | a, .filter_view m_view m_pred m_begin m_end =>
    WF S a.member m_view ∧
    m_end = .filt (itOf a.member m_view S.length) a ∧
    ∃ i, m_begin = .filt (itOf a.member m_view i) a ∧
      i ≤ seek (allp (m_pred :: m_view.preds)) S 0 ∧
      ∀ x, S[i]? = some x → allp m_view.preds x = true

/-- The `filter_view` with predicate `P` living at `a` that owns a borrowing
`all_view` of the vector `S`, its `m_begin` standing at position `b`. -/
def filter_over_vector {α : Type} (S : List α) (P : α → Bool) (a : Addr) (b : Nat) : view α :=
  .filter_view (.all_view_ref (.vec 0) (.vec S.length)) P (.filt (.vec b) a)
    (.filt (.vec S.length) a)

/-- The calls of the predicate of the `filter_view` at `a` on the elements `xs`. -/
def calls {α : Type} (a : Addr) (xs : List α) : Trace α := xs.map (fun x => (a, x))

/-- The back-pointer `m_view` of a `filter_view` iterator. -/
def iterator.owner : iterator → Option Addr
  | .vec _ => none
  | .filt _ m_view => some m_view

/-- The view is a `filter_view`. -/
def view.is_filter {α : Type} : view α → Bool
  | .filter_view _ _ _ _ => true
  | _ => false

/-- The stored `m_begin` of a view. -/
def view.m_begin {α : Type} : view α → iterator
  | .all_view_ref m_begin _ => m_begin
  | .all_view _ m_begin _ => m_begin
  | .filter_view _ _ m_begin _ => m_begin

/-- What may stand on the left of `operator|`: the vector, or a well-formed
view living somewhere. -/
def range.ok {α : Type} (S : List α) : range α → Prop
  | .vector => True
  | .rvalue V => ∃ a, WF S a V

/-- Filter stages already present in the left operand of `operator|`. -/
def range.preds {α : Type} : range α → List (α → Bool)
  | .vector => []
  | .rvalue V => V.preds

/-! ## Facts about `seek` -/

theorem seek_ge {α : Type} (p : α → Bool) (S : List α) (i : Nat) : i ≤ seek p S i := by
  unfold seek; omega

theorem seek_le {α : Type} (p : α → Bool) (S : List α) (i : Nat) (h : i ≤ S.length) :
    seek p S i ≤ S.length := by
  unfold seek
  have := @List.findIdx_le_length _ p (S.drop i)
  simp only [List.length_drop] at this
  omega

theorem seek_length {α : Type} (p : α → Bool) (S : List α) : seek p S S.length = S.length := by
  simp [seek]

theorem seek_hit {α : Type} (p : α → Bool) (S : List α) (i : Nat) (x : α)
    (hx : S[i]? = some x) (hp : p x = true) : seek p S i = i := by
  obtain ⟨hi, rfl⟩ := List.getElem?_eq_some_iff.mp hx
  unfold seek
  rw [List.drop_eq_getElem_cons hi, List.findIdx_cons, hp]
  rfl

theorem seek_miss {α : Type} (p : α → Bool) (S : List α) (i : Nat) (x : α)
    (hx : S[i]? = some x) (hp : p x = false) : seek p S i = seek p S (i + 1) := by
  obtain ⟨hi, rfl⟩ := List.getElem?_eq_some_iff.mp hx
  unfold seek
  rw [List.drop_eq_getElem_cons hi, List.findIdx_cons, hp]
  simp only [cond_false]
  omega

theorem seek_past {α : Type} (p : α → Bool) (S : List α) (i : Nat) (h : S.length ≤ i) :
    seek p S i = i := by
  simp [seek, List.drop_eq_nil_of_le h]

/-- No element before `seek p S i` satisfies `p`: seeking from anywhere in
between lands on the same position. -/
theorem seek_between {α : Type} (p : α → Bool) (S : List α) (n i j : Nat) (hn : j - i ≤ n)
    (hij : i ≤ j) (hj : j ≤ seek p S i) : seek p S i = seek p S j := by
  induction n generalizing i with
  | zero =>
    have : i = j := by omega
    rw [this]
  | succ n ih =>
    by_cases hEq : i = j
    · rw [hEq]
    · cases hx : S[i]? with
      | none =>
        have hlen : S.length ≤ i := List.getElem?_eq_none_iff.mp hx
        have := seek_past p S i hlen
        omega
      | some x =>
        cases hp : p x with
        | true =>
          have := seek_hit p S i x hx hp
          omega
        | false =>
          have hs := seek_miss p S i x hx hp
          rw [hs]
          exact ih (i + 1) (by omega) (by omega) (by omega)

/-- A stronger predicate is first satisfied no earlier. -/
theorem seek_mono {α : Type} (p q : α → Bool) (hpq : ∀ x, q x = true → p x = true)
    (S : List α) (n i : Nat) (hn : S.length - i ≤ n) : seek p S i ≤ seek q S i := by
  induction n generalizing i with
  | zero =>
    rw [seek_past p S i (by omega), seek_past q S i (by omega)]
  | succ n ih =>
    cases hx : S[i]? with
    | none =>
      have hlen : S.length ≤ i := List.getElem?_eq_none_iff.mp hx
      rw [seek_past p S i hlen, seek_past q S i hlen]
    | some x =>
      cases hp : p x with
      | true =>
        rw [seek_hit p S i x hx hp]
        exact seek_ge q S i
      | false =>
        have hq : q x = false := by
          cases hq : q x with
          | false => rfl
          | true => rw [hpq x hq] at hp; exact absurd hp (by decide)
        rw [seek_miss p S i x hx hp, seek_miss q S i x hx hq]
        exact ih (i + 1) (by have := (List.getElem?_eq_some_iff.mp hx).1; omega)

/-- The element found by `seek` satisfies the predicate. -/
theorem seek_sat {α : Type} (p : α → Bool) (S : List α) (n i : Nat) (hn : S.length - i ≤ n)
    (x : α) (hx : S[seek p S i]? = some x) : p x = true := by
  induction n generalizing i with
  | zero =>
    rw [seek_past p S i (by omega)] at hx
    have := (List.getElem?_eq_some_iff.mp hx).1
    omega
  | succ n ih =>
    cases hy : S[i]? with
    | none =>
      rw [seek_past p S i (List.getElem?_eq_none_iff.mp hy), hy] at hx
      exact absurd hx (by simp)
    | some y =>
      cases hp : p y with
      | true =>
        rw [seek_hit p S i y hy hp, hy] at hx
        cases hx
        exact hp
      | false =>
        rw [seek_miss p S i y hy hp] at hx
        exact ih (i + 1) (by have := (List.getElem?_eq_some_iff.mp hy).1; omega) hx

/-- Elements skipped by `seek` do not pass the filter. -/
theorem filter_drop_seek {α : Type} (p : α → Bool) (S : List α) (n i : Nat)
    (hn : S.length - i ≤ n) :
    (S.drop i).filter p = (S.drop (seek p S i)).filter p := by
  induction n generalizing i with
  | zero => rw [seek_past p S i (by omega)]
  | succ n ih =>
    cases hy : S[i]? with
    | none => rw [seek_past p S i (List.getElem?_eq_none_iff.mp hy)]
    | some y =>
      cases hp : p y with
      | true => rw [seek_hit p S i y hy hp]
      | false =>
        obtain ⟨hi, rfl⟩ := List.getElem?_eq_some_iff.mp hy
        rw [seek_miss p S i _ hy hp, ← ih (i + 1) (by omega), List.drop_eq_getElem_cons hi,
          List.filter_cons_of_neg (by simp [hp])]

theorem allp_nil {α : Type} (x : α) : allp ([] : List (α → Bool)) x = true := rfl

theorem allp_cons {α : Type} (q : α → Bool) (qs : List (α → Bool)) (x : α) :
    allp (q :: qs) x = (q x && allp qs x) := by
  simp [allp]

theorem seek_allp_nil {α : Type} (S : List α) (i : Nat) :
    seek (allp ([] : List (α → Bool))) S i = i := by
  cases hy : S[i]? with
  | none => exact seek_past _ S i (List.getElem?_eq_none_iff.mp hy)
  | some y => exact seek_hit _ S i y hy (allp_nil y)

/-! ## Iterators of a well-formed view -/

theorem itOf_eq {α : Type} (a : Addr) (V : view α) (i j : Nat) :
    (itOf a V i).eq (itOf a V j) = (i == j) := by
  induction V generalizing a with
  | all_view_ref b e => rfl
  | all_view U b e ih => exact ih a.member
  | filter_view U q b e ih => exact ih a.member

theorem itOf_deref {α : Type} (S : List α) (a : Addr) (V : view α) (i : Nat) :
    (itOf a V i).deref S = S[i]? := by
  induction V generalizing a with
  | all_view_ref b e => rfl
  | all_view U b e ih => exact ih a.member
  | filter_view U q b e ih => exact ih a.member

theorem itOf_depth {α : Type} (a : Addr) (V : view α) (i : Nat) :
    (itOf a V i).depth = V.preds.length := by
  induction V generalizing a with
  | all_view_ref b e => rfl
  | all_view U b e ih => exact ih a.member
  | filter_view U q b e ih =>
    simp only [itOf, iterator.depth, view.preds, List.length_cons, ih a.member]

theorem view.sub_succ {α : Type} (n : Nat) (V : view α) :
    view.sub (n + 1) V = (view.sub n V).bind (view.sub 1) := by
  induction n generalizing V with
  | zero => cases V <;> rfl
  | succ n ih =>
    cases V with
    | all_view_ref b e => rfl
    | all_view U b e => exact ih U
    | filter_view U q b e => exact ih U

/-- The member `m_view` of an object found at `a` is found at `a.member`. -/
theorem Heap.deref_member {α : Type} (H : Heap α) (a : Addr) (V U : view α)
    (h : H.deref a = some V) (hU : view.sub 1 V = some U) : H.deref a.member = some U := by
  unfold Heap.deref at h ⊢
  by_cases hc : a.root = H.base.root ∧ H.base.depth ≤ a.depth
  · rw [if_pos hc] at h
    have hc2 : a.member.root = H.base.root ∧ H.base.depth ≤ a.member.depth := by
      simp only [Addr.member]; exact ⟨hc.1, by omega⟩
    rw [if_pos hc2]
    have : a.member.depth - H.base.depth = (a.depth - H.base.depth) + 1 := by
      simp only [Addr.member]; omega
    rw [this, view.sub_succ, h]
    exact hU
  · rw [if_neg hc] at h
    exact absurd h (by simp)

theorem Heap.deref_base {α : Type} (a : Addr) (V : view α) :
    Heap.deref ⟨a, V⟩ a = some V := by
  simp [Heap.deref, view.sub]

/-- The loop of `operator++` on a filter stage `q` over an upstream whose
`operator++` moves to the next element passing the upstream stages: it stops
on the next element passing `q` as well, or at the end. -/
theorem incr_loop_spec {α : Type} (S : List α) (H : Heap α)
    (up : iterator → Option (iterator × Trace α)) (p : Addr) (U : view α) (q : α → Bool)
    (b e : iterator) (hH : H.deref p = some (.filter_view U q b e))
    (hE : U.cend = itOf p.member U S.length)
    (hup : ∀ i, i < S.length → ∃ t, up (itOf p.member U i)
      = some (itOf p.member U (seek (allp U.preds) S (i + 1)), t))
    (fuel i : Nat) (hi : i ≤ S.length) (hf : S.length - i + 1 ≤ fuel) :
    ∃ t, filter_view.iterator.incr_loop S H up p fuel (itOf p.member U i)
      = some (itOf p.member U
          (if i < S.length then seek (allp (q :: U.preds)) S (i + 1) else i), t) := by
  induction fuel generalizing i with
  | zero => omega
  | succ fuel ih =>
    unfold filter_view.iterator.incr_loop
    simp only [hH, hE, itOf_eq]
    by_cases hlt : i < S.length
    · have hne : (i == S.length) = false := by simp; omega
      obtain ⟨t, ht⟩ := hup i hlt
      simp only [hne, hlt, if_true, ht, itOf_eq, itOf_deref, Bool.false_eq_true, if_false]
      have hj1 : i + 1 ≤ seek (allp U.preds) S (i + 1) := seek_ge _ _ _
      have hj2 : seek (allp U.preds) S (i + 1) ≤ S.length := seek_le _ _ _ (by omega)
      have hmono : seek (allp U.preds) S (i + 1) ≤ seek (allp (q :: U.preds)) S (i + 1) :=
        seek_mono _ _ (fun x hx => by rw [allp_cons] at hx; simp at hx; exact hx.2) S _ _
          (le_refl _)
      have hQle : seek (allp (q :: U.preds)) S (i + 1) ≤ S.length := seek_le _ _ _ (by omega)
      have hbetween := seek_between (allp (q :: U.preds)) S _ (i + 1) _ (le_refl _) hj1 hmono
      have hsat := fun x => seek_sat (allp U.preds) S _ (i + 1) (le_refl _) x
      generalize seek (allp U.preds) S (i + 1) = j at hj1 hj2 hmono hbetween hsat
      by_cases hjl : j < S.length
      · have hne2 : (j == S.length) = false := by simp; omega
        have hget : S[j]? = some S[j] := List.getElem?_eq_getElem hjl
        have hP := hsat _ hget
        simp only [hne2, Bool.false_eq_true, if_false, hget]
        cases hq : q S[j] with
        | true =>
          have hQ : allp (q :: U.preds) S[j] = true := by rw [allp_cons, hq, hP]; rfl
          rw [hbetween, seek_hit _ S j _ hget hQ]
          exact ⟨_, rfl⟩
        | false =>
          have hQ : allp (q :: U.preds) S[j] = false := by rw [allp_cons, hq]; rfl
          obtain ⟨t2, ht2⟩ := ih j hj2 (by omega)
          simp only [hjl, if_true] at ht2
          rw [hbetween, seek_miss _ S j _ hget hQ]
          simp only [Bool.false_eq_true, if_false, ht2, Option.map_some']
          exact ⟨_, rfl⟩
      · have hje : j = S.length := by omega
        obtain ⟨t2, ht2⟩ := ih j hj2 (by omega)
        simp only [hje, lt_irrefl, if_false] at ht2
        subst hje
        simp only [beq_self_eq_true, if_true, ht2, Option.map_some']
        have : seek (allp (q :: U.preds)) S (i + 1) = S.length := by omega
        rw [this]
        exact ⟨_, rfl⟩
    · have hie : i = S.length := by omega
      subst hie
      simp

theorem WF.cend_eq {α : Type} {S : List α} {a : Addr} {V : view α} (h : WF S a V) :
    V.cend = itOf a V S.length := by
  cases V with
  | all_view_ref b e => exact h.2
  | all_view U b e => exact h.2.2
  | filter_view U q b e => exact h.2.1

/-- Pre-increment of a non-end iterator of a well-formed view moves it to the
next element that passes every filter stage of the view, or to the end. -/
theorem incr_at_spec {α : Type} (S : List α) (H : Heap α) (V : view α) (a : Addr)
    (hH : H.deref a = some V) (hW : WF S a V) (i : Nat) (hi : i < S.length) :
    ∃ t, iterator.incr_at S H V.preds.length (itOf a V i)
      = some (itOf a V (seek (allp V.preds) S (i + 1)), t) := by
  induction V generalizing a i with
  | all_view_ref b e =>
    refine ⟨[], ?_⟩
    simp only [view.preds, List.length_nil, itOf, iterator.incr_at, hi, if_true, seek_allp_nil]
  | all_view U b e ih =>
    exact ih a.member (Heap.deref_member H a _ U hH rfl) hW.1 i hi
  | filter_view U q b e ih =>
    have hU := Heap.deref_member H a _ U hH rfl
    have hloop := incr_loop_spec S H (iterator.incr_at S H U.preds.length) a U q b e hH
      hW.1.cend_eq (fun j hj => ih a.member hU hW.1 j hj) (S.length + 1) i (by omega) (by omega)
    obtain ⟨t, ht⟩ := hloop
    simp only [hi, if_true] at ht
    refine ⟨t, ?_⟩
    simp only [view.preds, List.length_cons, itOf, iterator.incr_at, ht]

theorem incr_spec {α : Type} (S : List α) (H : Heap α) (V : view α) (a : Addr)
    (hH : H.deref a = some V) (hW : WF S a V) (i : Nat) (hi : i < S.length) :
    ∃ t, iterator.incr S H (itOf a V i)
      = some (itOf a V (seek (allp V.preds) S (i + 1)), t) := by
  unfold iterator.incr
  rw [itOf_depth]
  exact incr_at_spec S H V a hH hW i hi

/-- `begin()` of a well-formed view returns the iterator on the first element
that passes every stage (the end iterator when there is none) and leaves the
view well formed. -/
theorem cbegin_spec {α : Type} (S : List α) (a : Addr) (V : view α) (hW : WF S a V) :
    ∃ V2 t, V.cbegin S a = some (itOf a V (seek (allp V.preds) S 0), V2, t) ∧
      WF S a V2 ∧ V2.preds = V.preds ∧ ∀ c i, itOf c V2 i = itOf c V i := by
  cases V with
  | all_view_ref b e =>
    refine ⟨_, [], ?_, hW, rfl, fun _ _ => rfl⟩
    simp only [view.cbegin, view.preds, itOf, seek_allp_nil, hW.1]
  | all_view U b e =>
    refine ⟨_, [], ?_, hW, rfl, fun _ _ => rfl⟩
    simp only [view.cbegin, view.preds, itOf, hW.2.1]
  | filter_view U q b e =>
    obtain ⟨hU, he, i, hb, hle, hsat⟩ := hW
    subst hb he
    have hW : WF S a (.filter_view U q (.filt (itOf a.member U i) a)
        (.filt (itOf a.member U S.length) a)) := ⟨hU, rfl, i, rfl, hle, hsat⟩
    have hf : seek (allp (q :: U.preds)) S 0 ≤ S.length := seek_le _ _ _ (Nat.zero_le _)
    have hbet := seek_between (allp (q :: U.preds)) S _ 0 i (le_refl _) (Nat.zero_le _) hle
    simp only [view.cbegin, view.preds, iterator.eq, iterator.deref, itOf_eq, itOf_deref, itOf]
    by_cases hlt : i < S.length
    · have hne : (i == S.length) = false := by simp; omega
      have hget : S[i]? = some S[i] := List.getElem?_eq_getElem hlt
      simp only [hne, Bool.false_eq_true, if_false, hget]
      cases hq : q S[i] with
      | true =>
        have hQ : allp (q :: U.preds) S[i] = true := by
          rw [allp_cons, hq, hsat _ hget]; rfl
        simp only [if_true, hbet, seek_hit _ S i _ hget hQ]
        exact ⟨_, _, rfl, hW, rfl, fun _ _ => rfl⟩
      | false =>
        have hQ : allp (q :: U.preds) S[i] = false := by rw [allp_cons, hq]; rfl
        obtain ⟨t, ht⟩ := incr_spec S ⟨a, _⟩ _ a (Heap.deref_base _ _) hW i hlt
        simp only [view.preds, itOf] at ht
        simp only [Bool.false_eq_true, if_false, ht, hbet, seek_miss _ S i _ hget hQ]
        have h1 : seek (allp (q :: U.preds)) S (i + 1) ≤ seek (allp (q :: U.preds)) S 0 := by
          rw [hbet, seek_miss _ S i _ hget hQ]
        have h2 : ∀ x, S[seek (allp (q :: U.preds)) S (i + 1)]? = some x →
            allp U.preds x = true := by
          intro x hx
          have := seek_sat (allp (q :: U.preds)) S _ (i + 1) (le_refl _) x hx
          rw [allp_cons] at this
          simp at this
          exact this.2
        exact ⟨_, _, rfl, ⟨hU, rfl, _, rfl, h1, h2⟩, rfl, fun _ _ => rfl⟩
    · have hie : i = S.length := by omega
      have : seek (allp (q :: U.preds)) S 0 = i := by omega
      have hbe : (i == S.length) = true := by simp [hie]
      simp only [this, hbe, if_true]
      exact ⟨_, _, rfl, hW, rfl, fun _ _ => rfl⟩

/-- The traversal loop over a well-formed view, started on an element that
passes every stage (or at the end), visits exactly the remaining elements that
pass every stage. -/
theorem for_loop_spec {α : Type} (S : List α) (a : Addr) (V : view α) (hW : WF S a V)
    (fuel i : Nat) (hi : i ≤ S.length) (hf : S.length - i + 1 ≤ fuel)
    (hsat : ∀ x, S[i]? = some x → allp V.preds x = true) :
    ∃ t, for_loop S ⟨a, V⟩ (itOf a V S.length) fuel (itOf a V i)
      = some ((S.drop i).filter (allp V.preds), t) := by
  induction fuel generalizing i with
  | zero => omega
  | succ fuel ih =>
    unfold for_loop
    simp only [itOf_eq, itOf_deref]
    by_cases hlt : i < S.length
    · have hne : (i == S.length) = false := by simp; omega
      have hget : S[i]? = some S[i] := List.getElem?_eq_getElem hlt
      obtain ⟨t, ht⟩ := incr_spec S ⟨a, V⟩ V a (Heap.deref_base _ _) hW i hlt
      obtain ⟨t2, ht2⟩ := ih (seek (allp V.preds) S (i + 1)) (seek_le _ _ _ (by omega))
        (by have := seek_ge (allp V.preds) S (i + 1); omega)
        (fun x hx => seek_sat _ S _ (i + 1) (le_refl _) x hx)
      simp only [hne, Bool.false_eq_true, if_false, hget, ht, ht2]
      rw [← filter_drop_seek _ S _ (i + 1) (le_refl _), List.drop_eq_getElem_cons hlt,
        List.filter_cons_of_pos (hsat _ hget)]
      exact ⟨_, rfl⟩
    · have hie : i = S.length := by omega
      subst hie
      exact ⟨[], by simp⟩

/-- Traversing a well-formed view yields the elements of `S` that pass every
filter stage, in order, and leaves the view well formed. -/
theorem traverse_spec {α : Type} (S : List α) (a : Addr) (V : view α) (hW : WF S a V) :
    ∃ V2 t, traverse S a V = some (S.filter (allp V.preds), V2, t) ∧
      WF S a V2 ∧ V2.preds = V.preds := by
  obtain ⟨V2, t, hb, hW2, hp, hit⟩ := cbegin_spec S a V hW
  obtain ⟨t2, hl⟩ := for_loop_spec S a V2 hW2 (S.length + 1) (seek (allp V.preds) S 0)
    (seek_le _ _ _ (Nat.zero_le _)) (by omega)
    (fun x hx => by rw [hp]; exact seek_sat _ S _ 0 (le_refl _) x hx)
  refine ⟨V2, t ++ t2, ?_, hW2, hp⟩
  unfold traverse
  rw [hb]
  simp only [hW2.cend_eq, ← hit a]
  rw [hl, hp, ← filter_drop_seek _ S _ 0 (le_refl _)]
  rfl

/-! ## Construction establishes the invariant -/

theorem WF.adopt {α : Type} {S : List α} {a : Addr} {U : view α} (hW : WF S a.member U) :
    WF S a (.all_view U (itOf a.member U (seek (allp U.preds) S 0)) U.cend) :=
  ⟨hW, rfl, hW.cend_eq⟩

theorem WF.wrap {α : Type} {S : List α} {a : Addr} {U : view α} (hW : WF S a.member U)
    (q : α → Bool) :
    WF S a (.filter_view U q (.filt (itOf a.member U (seek (allp U.preds) S 0)) a)
      (.filt U.cend a)) := by
  refine ⟨hW, by rw [hW.cend_eq], _, rfl, ?_, ?_⟩
  · exact seek_mono _ _ (fun x hx => by rw [allp_cons] at hx; simp at hx; exact hx.2) S _ 0
      (le_refl _)
  · exact fun x hx => seek_sat _ S _ 0 (le_refl _) x hx

/-- `begin()` of a well-formed view, with the returned iterator and the
predicates expressed through the view afterwards. -/
theorem cbegin_after {α : Type} (S : List α) (a : Addr) (V : view α) (hW : WF S a V) :
    ∃ V2 t, V.cbegin S a = some (itOf a V2 (seek (allp V2.preds) S 0), V2, t) ∧
      WF S a V2 ∧ V2.preds = V.preds ∧ ∀ c i, itOf c V2 i = itOf c V i := by
  obtain ⟨V2, t, h, hW2, hp, hit⟩ := cbegin_spec S a V hW
  refine ⟨V2, t, ?_, hW2, hp, hit⟩
  rw [h, hp, hit]

/-- A move constructor builds, at the new address, a well-formed view with the
same filter stages, whatever address the source lived at. -/
theorem move_ctor_spec {α : Type} (S : List α) (a₀ a : Addr) (V : view α) (hW : WF S a₀ V) :
    ∃ V2 t, view.move_ctor S a V = some (V2, t) ∧ WF S a V2 ∧ V2.preds = V.preds ∧
      ∀ c i, itOf c V2 i = itOf c V i := by
  induction V generalizing a₀ a with
  | all_view_ref b e => exact ⟨_, _, rfl, hW, rfl, fun _ _ => rfl⟩
  | all_view U b e ih =>
    obtain ⟨U2, t, h, hW2, hp, hit⟩ := ih a₀.member a.member hW.1
    obtain ⟨U3, t3, h3, hW3, hp3, hit3⟩ := cbegin_after S a.member U2 hW2
    simp only [view.move_ctor, h, h3]
    refine ⟨_, _, rfl, hW3.adopt, ?_, ?_⟩
    · simp only [view.preds, hp3, hp]
    · intro c i
      simp only [itOf, hit3, hit]
  | filter_view U q b e ih =>
    obtain ⟨U2, t, h, hW2, hp, hit⟩ := ih a₀.member a.member hW.1
    obtain ⟨U3, t3, h3, hW3, hp3, hit3⟩ := cbegin_after S a.member U2 hW2
    simp only [view.move_ctor, h, h3]
    refine ⟨_, _, rfl, hW3.wrap q, ?_, ?_⟩
    · simp only [view.preds, hp3, hp]
    · intro c i
      simp only [itOf, hit3, hit]

/-- The borrowing `all_view` over the caller's vector is well formed. -/
theorem all_view_ctor_vector {α : Type} (S : List α) (a : Addr) :
    ∃ V, all_view.ctor S a (.vector : range α) = some (V, []) ∧ WF S a V ∧ V.preds = [] :=
  ⟨_, rfl, ⟨rfl, rfl⟩, rfl⟩

/-- Adopting a well-formed view gives a well-formed owning `all_view` with the
same filter stages. -/
theorem all_view_ctor_rvalue {α : Type} (S : List α) (a₀ a : Addr) (V : view α)
    (hW : WF S a₀ V) :
    ∃ V2 t, all_view.ctor S a (.rvalue V) = some (V2, t) ∧ WF S a V2 ∧ V2.preds = V.preds ∧
      ∀ c i, itOf c V2 i = itOf c.member V i := by
  obtain ⟨U2, t, h, hW2, hp, hit⟩ := move_ctor_spec S a₀ a.member V hW
  obtain ⟨U3, t3, h3, hW3, hp3, hit3⟩ := cbegin_after S a.member U2 hW2
  simp only [all_view.ctor, h, h3]
  refine ⟨_, _, rfl, hW3.adopt, ?_, ?_⟩
  · simp only [view.preds, hp3, hp]
  · intro c i
    simp only [itOf, hit3, hit]

/-- The `filter_view` constructor over a well-formed upstream view gives a
well-formed view with the new predicate as outermost stage. -/
theorem filter_view_ctor_spec {α : Type} (S : List α) (a₀ a : Addr) (V : view α)
    (f : α → Bool) (hW : WF S a₀ V) :
    ∃ V2 t, filter_view.ctor S a V f = some (V2, t) ∧ WF S a V2 ∧
      V2.preds = f :: V.preds ∧ V2.is_filter = true := by
  obtain ⟨U2, t, h, hW2, hp, _⟩ := move_ctor_spec S a₀ a.member V hW
  obtain ⟨U3, t3, h3, hW3, hp3, _⟩ := cbegin_after S a.member U2 hW2
  simp only [filter_view.ctor, h, h3]
  refine ⟨_, _, rfl, hW3.wrap f, ?_, rfl⟩
  simp only [view.preds, hp3, hp]

theorem pipe_spec {α : Type} (S : List α) (tmp ret : Addr) (r : range α) (fn : filter_fn α)
    (hr : r.ok S) :
    ∃ V t, pipe S tmp ret r fn = some (V, t) ∧ WF S ret V ∧
      V.preds = fn.m_func :: r.preds ∧ V.is_filter = true := by
  have h1 : ∃ A t, all_view.ctor S tmp r = some (A, t) ∧ WF S tmp A ∧ A.preds = r.preds := by
    cases r with
    | vector =>
      obtain ⟨A, h, hW, hp⟩ := all_view_ctor_vector S tmp
      exact ⟨A, [], h, hW, hp⟩
    | rvalue V =>
      obtain ⟨a, hW⟩ := hr
      obtain ⟨A, t, h, hW2, hp, _⟩ := all_view_ctor_rvalue S a tmp V hW
      exact ⟨A, t, h, hW2, hp⟩
  obtain ⟨A, t, h, hW, hp⟩ := h1
  obtain ⟨V2, t2, h2, hW2, hp2, hk⟩ := filter_view_ctor_spec S tmp ret A fn.m_func hW
  simp only [pipe, filter_fn.call, h, h2]
  refine ⟨_, _, rfl, hW2, ?_, hk⟩
  rw [hp2, hp]

theorem chain_from_spec {α : Type} (S : List α) (ps : List (α → Bool)) (k : Nat)
    (r : range α) (hr : r.ok S) :
    ∃ r2 t, chain_from S k r ps = some (r2, t) ∧ r2.preds = ps.reverse ++ r.preds ∧
      r2.ok S ∧ ∀ p qs, ps = p :: qs →
        ∃ V, r2 = .rvalue V ∧ WF S ⟨2 * (k + ps.length), 0⟩ V ∧ V.is_filter = true := by
  induction ps generalizing k r with
  | nil => exact ⟨r, [], rfl, by simp, hr, fun p qs h => by cases h⟩
  | cons p ps ih =>
    obtain ⟨V, t, h, hW, hp, hk⟩ := pipe_spec S ⟨2 * k + 1, 0⟩ ⟨2 * k + 2, 0⟩ r (filter p) hr
    obtain ⟨r2, t2, h2, hp2, hok, haddr⟩ := ih (k + 1) (.rvalue V) ⟨_, hW⟩
    simp only [chain_from, h, h2]
    refine ⟨r2, _, rfl, ?_, hok, ?_⟩
    · rw [hp2]
      simp only [range.preds, hp, filter, List.reverse_cons, List.append_assoc,
        List.singleton_append]
    · intro _ _ _
      cases ps with
      | nil =>
        simp only [chain_from] at h2
        cases h2
        exact ⟨V, rfl, hW, hk⟩
      | cons q qs =>
        obtain ⟨V2, hV2, hW2, hk2⟩ := haddr q qs rfl
        refine ⟨V2, hV2, ?_, hk2⟩
        have : 2 * (k + 1 + (q :: qs).length) = 2 * (k + (p :: q :: qs).length) := by
          simp only [List.length_cons]; omega
        rw [← this]
        exact hW2

theorem allp_reverse {α : Type} (qs : List (α → Bool)) (x : α) :
    allp qs.reverse x = allp qs x := by
  simp [allp]

/-- The chain built by the pipe operator is a well-formed view at its address
whose filter stages are the given predicates, the last one outermost. -/
theorem chain_spec {α : Type} (S : List α) (p : α → Bool) (ps : List (α → Bool)) :
    ∃ V t, chain S p ps = some (V, t) ∧ WF S (chain_addr ps) V ∧
      V.preds = (p :: ps).reverse ∧ V.is_filter = true := by
  obtain ⟨r2, t, h, hp, _, haddr⟩ := chain_from_spec S (p :: ps) 0 .vector trivial
  obtain ⟨V, hV, hW, hk⟩ := haddr p ps rfl
  subst hV
  refine ⟨V, t, ?_, ?_, ?_, hk⟩
  · simp only [chain, h]
  · simpa [chain_addr] using hW
  · simpa [range.preds] using hp

theorem chain_elems_spec {α : Type} (S : List α) (p : α → Bool) (ps : List (α → Bool)) :
    chain_elems S p ps = some (S.filter (allp (p :: ps))) := by
  obtain ⟨V, t, h, hW, hp, _⟩ := chain_spec S p ps
  obtain ⟨V2, t2, ht, _, _⟩ := traverse_spec S (chain_addr ps) V hW
  simp only [chain_elems, h, ht, Option.map_some', hp]
  congr 1
  exact List.filter_congr (fun x _ => allp_reverse (p :: ps) x)

theorem seek_none {α : Type} (p : α → Bool) (S : List α) (h : ∀ x ∈ S, p x = false) :
    seek p S 0 = S.length := by
  simp only [seek, List.drop_zero, Nat.zero_add]
  exact List.findIdx_eq_length_of_false h

/-- First `begin()` on the view built by a chain: it returns the iterator on the
first element of `S` passing all the predicates, and `end()` is the iterator
on position `S.length`. -/
theorem chain_begin_spec {α : Type} (S : List α) (p : α → Bool) (ps : List (α → Bool)) :
    ∃ V t V2 t2, chain S p ps = some (V, t) ∧
      V.cbegin S (chain_addr ps) =
        some (itOf (chain_addr ps) V (seek (allp (p :: ps)) S 0), V2, t2) ∧
      V2.cend = itOf (chain_addr ps) V S.length := by
  obtain ⟨V, t, h, hW, hp, _⟩ := chain_spec S p ps
  obtain ⟨V2, t2, hb, hW2, _, hit⟩ := cbegin_spec S (chain_addr ps) V hW
  refine ⟨V, t, V2, t2, h, ?_, ?_⟩
  · rw [hb, hp]
    have : allp (p :: ps).reverse = allp (p :: ps) := funext (allp_reverse (p :: ps))
    rw [this]
  · rw [hW2.cend_eq, hit]

/-! ## The claims -/

/-- C1: for every sequence `S` and predicate `P`, building `S | filter(P)` (at
any addresses for the temporary `all_view` and for the result) succeeds, and
traversing the result (`begin()` once, then dereference and pre-increment until
the iterator equals `end()`) yields exactly `List.filter P S`. -/
theorem single_filter_traversal {α : Type} (S : List α) (P : α → Bool) (tmp ret : Addr) :
    ∃ V t, pipe S tmp ret .vector (filter P) = some (V, t) ∧
      elems S ret V = some (S.filter P) := by
  obtain ⟨V, t, h, hW, hp, _⟩ := pipe_spec S tmp ret .vector (filter P) trivial
  obtain ⟨V2, t2, ht, _, _⟩ := traverse_spec S ret V hW
  refine ⟨V, t, h, ?_⟩
  simp only [elems, ht, Option.map_some', hp]
  congr 1
  exact List.filter_congr (fun x _ => by simp [allp, filter, range.preds])

/-- C2: for every `S`, `P1`, `P2`, traversing the two-stage chain
`S | filter(P1) | filter(P2)` and traversing the single-stage view
`S | filter(fun x => P1 x && P2 x)` both succeed and yield the same list. -/
theorem two_stage_eq_conjunction {α : Type} (S : List α) (P1 P2 : α → Bool) :
    ∃ xs, chain_elems S P1 [P2] = some xs ∧
      chain_elems S (fun x => P1 x && P2 x) [] = some xs := by
  refine ⟨S.filter (allp [P1, P2]), chain_elems_spec S P1 [P2], ?_⟩
  rw [chain_elems_spec]
  congr 1
  exact List.filter_congr (fun x _ => by simp [allp])

/-- C3: for every `S` and every non-empty list of predicates `p :: ps`,
traversing `S | filter(p) | filter(ps₁) | ... | filter(psₙ)` yields exactly the
elements of `S` that satisfy all the predicates, in original order. -/
theorem chain_traversal {α : Type} (S : List α) (p : α → Bool) (ps : List (α → Bool)) :
    chain_elems S p ps = some (S.filter (fun x => (p :: ps).all (fun q => q x))) :=
  chain_elems_spec S p ps

/-- C4: for every `S` and `P`, traversing `S | filter(P) | filter(P)` yields the
same list as traversing `S | filter(P)`. -/
theorem same_filter_twice {α : Type} (S : List α) (P : α → Bool) :
    ∃ xs, chain_elems S P [P] = some xs ∧ chain_elems S P [] = some xs := by
  refine ⟨S.filter (allp [P]), ?_, chain_elems_spec S P []⟩
  rw [chain_elems_spec]
  congr 1
  exact List.filter_congr (fun x _ => by simp [allp])

/-- C5: for every `S` (the empty one included) and every chain of one or more
filter stages over `S`, if no element of `S` satisfies all the predicates, then
the first `begin()` of the outermost view returns an iterator equal to `end()`,
and the traversal visits no element. -/
theorem empty_result_begin_is_end {α : Type} (S : List α) (p : α → Bool)
    (ps : List (α → Bool)) (h : ∀ x ∈ S, (p :: ps).all (fun q => q x) = false) :
    ∃ V t b V2 t2, chain S p ps = some (V, t) ∧
      V.cbegin S (chain_addr ps) = some (b, V2, t2) ∧ b.eq V2.cend = true ∧
      chain_elems S p ps = some [] := by
  obtain ⟨V, t, V2, t2, hc, hb, he⟩ := chain_begin_spec S p ps
  refine ⟨V, t, _, V2, t2, hc, hb, ?_, ?_⟩
  · rw [he, itOf_eq, seek_none (allp (p :: ps)) S h]
    simp
  · rw [chain_elems_spec]
    congr 1
    exact List.filter_eq_nil_iff.mpr (fun x hx => by simp [allp, h x hx])

/-- Witness of C5: no element of `[1, 2, 3]` is both greater than 5 and equal to 2. -/
theorem empty_result_begin_is_end_witness :
    (∀ x ∈ ([1, 2, 3] : List Int),
        ((fun i => decide (i > 5)) :: [fun i => i == 2]).all (fun q => q x) = false) ∧
      ∃ V t b V2 t2, chain ([1, 2, 3] : List Int) (fun i => decide (i > 5)) [fun i => i == 2]
          = some (V, t) ∧
        V.cbegin [1, 2, 3] (chain_addr [fun i : Int => i == 2]) = some (b, V2, t2) ∧
        b.eq V2.cend = true ∧
        chain_elems ([1, 2, 3] : List Int) (fun i => decide (i > 5)) [fun i => i == 2]
          = some [] :=
  ⟨by decide, empty_result_begin_is_end _ _ _ (by decide)⟩

/-- C6: with `S = [1, ..., 20]`, traversing
`S | filter(even) | filter(> 10) | filter(< 16) | filter(== 14)` yields `[14]`;
with a further `| filter(== 1)` the first `begin()` equals `end()` and the
traversal yields nothing. -/
theorem scenario_one_to_twenty :
    chain_elems S20 (fun i => Int.tmod i 2 == 0)
        [fun i => decide (i > 10), fun i => decide (i < 16), fun i => i == 14] = some [14] ∧
      ∃ V t b V2 t2,
        chain S20 (fun i => Int.tmod i 2 == 0)
          [fun i => decide (i > 10), fun i => decide (i < 16), fun i => i == 14,
            fun i => i == 1] = some (V, t) ∧
        V.cbegin S20 ⟨10, 0⟩ = some (b, V2, t2) ∧ b.eq V2.cend = true ∧
        elems S20 ⟨10, 0⟩ V = some [] := by
  refine ⟨?_, ?_⟩
  · rw [chain_elems_spec]
    decide
  · obtain ⟨V, t, V2, t2, hc, hb, he⟩ := chain_begin_spec S20 (fun i => Int.tmod i 2 == 0)
      [fun i => decide (i > 10), fun i => decide (i < 16), fun i => i == 14, fun i => i == 1]
    have hs : seek (allp [fun i => Int.tmod i 2 == 0, fun i => decide (i > 10),
        fun i => decide (i < 16), fun i => i == 14, fun i => i == 1]) S20 0 = S20.length :=
      seek_none _ _ (by decide)
    have hel := chain_elems_spec S20 (fun i => Int.tmod i 2 == 0)
      [fun i => decide (i > 10), fun i => decide (i < 16), fun i => i == 14, fun i => i == 1]
    simp only [chain_elems, hc] at hel
    refine ⟨V, t, _, V2, t2, hc, hb, ?_, ?_⟩
    · rw [he, itOf_eq, hs]
      simp
    · rw [show (⟨10, 0⟩ : Addr) = chain_addr [fun i : Int => decide (i > 10),
        fun i => decide (i < 16), fun i => i == 14, fun i => i == 1] from rfl]
      rw [elems, hel]
      decide

/-! ## Predicate calls of a single stage -/

/-- The loop of `operator++` of a single stage over the vector calls the
predicate on the elements after position `i` up to and including the first
accepted one. -/
theorem incr_loop_trace {α : Type} (S : List α) (H : Heap α) (P : α → Bool) (a : Addr)
    (b₀ b e : iterator)
    (hH : H.deref a = some (.filter_view (.all_view_ref b₀ (.vec S.length)) P b e))
    (fuel i : Nat) (hi : i < S.length) (hf : S.length - i + 1 ≤ fuel) :
    filter_view.iterator.incr_loop S H (iterator.incr_at S H 0) a fuel (.vec i)
      = some (.vec (seek P S (i + 1)),
          calls a ((S.drop (i + 1)).take (seek P S (i + 1) - i))) := by
  induction fuel generalizing i with
  | zero => omega
  | succ fuel ih =>
    unfold filter_view.iterator.incr_loop
    have hne : (i == S.length) = false := by simp; omega
    simp only [hH, view.cend, iterator.eq, hne, Bool.false_eq_true, if_false,
      iterator.incr_at, hi, if_true, iterator.deref, List.nil_append]
    by_cases hlt : i + 1 < S.length
    · have hne2 : (i + 1 == S.length) = false := by simp; omega
      have hget : S[i + 1]? = some S[i + 1] := List.getElem?_eq_getElem hlt
      simp only [hne2, Bool.false_eq_true, if_false, hget]
      cases hq : P S[i + 1] with
      | true =>
        have h1 : i + 1 - i = 1 := by omega
        rw [seek_hit P S (i + 1) _ hget hq, h1, List.drop_eq_getElem_cons hlt]
        simp only [if_true]
        rfl
      | false =>
        rw [seek_miss P S (i + 1) _ hget hq, ih (i + 1) hlt (by omega)]
        have hge := seek_ge P S (i + 1 + 1)
        have : seek P S (i + 1 + 1) - i = (seek P S (i + 1 + 1) - (i + 1)) + 1 := by omega
        simp only [Bool.false_eq_true, if_false, Option.map_some', calls, this,
          List.drop_eq_getElem_cons hlt, List.take_succ_cons, List.map_cons]
    · have hie : i + 1 = S.length := by omega
      have hnext : filter_view.iterator.incr_loop S H (iterator.incr_at S H 0) a fuel
          (.vec (i + 1)) = some (.vec (i + 1), []) := by
        cases fuel with
        | zero => omega
        | succ fuel =>
          unfold filter_view.iterator.incr_loop
          simp [hH, view.cend, iterator.eq, hie]
      have hbe : (i + 1 == S.length) = true := by simp [hie]
      simp only [hbe, if_true, hnext, Option.map_some', seek_past P S (i + 1) (by omega)]
      simp [calls, hie]

/-- First `begin()` of a single stage over the vector: the predicate is called
on the elements of `S` up to and including the first accepted one. -/
theorem cbegin_trace {α : Type} (S : List α) (P : α → Bool) (a : Addr) :
    (filter_over_vector S P a 0).cbegin S a
      = some (.filt (.vec (seek P S 0)) a, filter_over_vector S P a (seek P S 0),
          calls a (S.take (seek P S 0 + 1))) := by
  cases S with
  | nil => simp [filter_over_vector, view.cbegin, iterator.eq, seek, calls]
  | cons x xs =>
    have hget : (x :: xs)[0]? = some x := by simp
    simp only [filter_over_vector, view.cbegin, iterator.eq, iterator.deref, hget]
    have hne : (0 == (x :: xs).length) = false := by simp
    simp only [hne, Bool.false_eq_true, if_false]
    cases hq : P x with
    | true =>
      rw [seek_hit P (x :: xs) 0 x hget hq]
      simp [calls]
    | false =>
      have hloop := incr_loop_trace (x :: xs)
        ⟨a, filter_over_vector (x :: xs) P a 0⟩ P a (.vec 0) (.filt (.vec 0) a)
        (.filt (.vec (x :: xs).length) a) (Heap.deref_base _ _) ((x :: xs).length + 1) 0
        (by simp) (by omega)
      simp only [filter_over_vector] at hloop
      rw [seek_miss P (x :: xs) 0 x hget hq]
      simp only [Bool.false_eq_true, if_false, iterator.incr, iterator.depth,
        iterator.incr_at, hloop]
      simp [calls]

theorem itOf_owner {α : Type} (a : Addr) (V : view α) (i : Nat) (h : V.is_filter = true) :
    (itOf a V i).owner = some a := by
  cases V with
  | filter_view U q b e => rfl
  | all_view_ref b e => cases h
  | all_view U b e => cases h

theorem WF.m_begin_eq {α : Type} {S : List α} {a : Addr} {V : view α} (h : WF S a V) :
    ∃ i, V.m_begin = itOf a V i := by
  cases V with
  | all_view_ref b e => exact ⟨0, h.1⟩
  | all_view U b e => exact ⟨_, h.2.1⟩
  | filter_view U q b e =>
    obtain ⟨_, _, i, hb, _⟩ := h
    exact ⟨i, hb⟩

theorem move_ctor_all_view {α : Type} (S : List α) (this : Addr) (U : view α)
    (b e : iterator) :
    view.move_ctor S this (.all_view U b e)
      = (match view.move_ctor S this.member U with
        | none => none
        | some (m_view, t₁) =>
          match m_view.cbegin S this.member with
          | none => none
          | some (m_begin, m_view, t₂) =>
            some (.all_view m_view m_begin m_view.cend, t₁ ++ t₂)) := rfl

/-- Building the second stage over a first stage that borrows the vector: the
result, and the predicate calls made on the way.  The adopted first stage has
`begin()` called on it twice, at `tmp.member` by the `all_view` constructor and
at `ret.member.member` by the `all_view` move constructor. -/
theorem pipe_over_stage {α : Type} (S : List α) (P1 P2 : α → Bool) (a₀ tmp ret : Addr)
    (k : Nat) :
    pipe S tmp ret (.rvalue (filter_over_vector S P1 a₀ k)) (filter P2)
      = some (.filter_view
          (.all_view (filter_over_vector S P1 ret.member.member (seek P1 S 0))
            (.filt (.vec (seek P1 S 0)) ret.member.member)
            (.filt (.vec S.length) ret.member.member))
          P2 (.filt (.filt (.vec (seek P1 S 0)) ret.member.member) ret)
          (.filt (.filt (.vec S.length) ret.member.member) ret),
        calls tmp.member (S.take (seek P1 S 0 + 1)) ++
          calls ret.member.member (S.take (seek P1 S 0 + 1))) := by
  have hmove : ∀ a j, view.move_ctor S a (filter_over_vector S P1 a₀ j)
      = some (filter_over_vector S P1 a 0, []) := fun _ _ => rfl
  have hmove2 : ∀ a b j, view.move_ctor S a (filter_over_vector S P1 b j)
      = some (filter_over_vector S P1 a 0, []) := fun _ _ _ => rfl
  have hall : all_view.ctor S tmp (.rvalue (filter_over_vector S P1 a₀ k))
      = some (.all_view (filter_over_vector S P1 tmp.member (seek P1 S 0))
          (.filt (.vec (seek P1 S 0)) tmp.member) (.filt (.vec S.length) tmp.member),
        calls tmp.member (S.take (seek P1 S 0 + 1))) := by
    simp only [all_view.ctor, hmove, cbegin_trace, List.nil_append]
    rfl
  have hmv : ∀ b e, view.move_ctor S ret.member
      (.all_view (filter_over_vector S P1 tmp.member (seek P1 S 0)) b e)
      = some (.all_view (filter_over_vector S P1 ret.member.member (seek P1 S 0))
          (.filt (.vec (seek P1 S 0)) ret.member.member)
          (.filt (.vec S.length) ret.member.member),
        calls ret.member.member (S.take (seek P1 S 0 + 1))) := by
    intro b e
    rw [move_ctor_all_view, hmove2]
    simp only [cbegin_trace, List.nil_append]
    rfl
  simp only [pipe, filter_fn.call, hall, filter_view.ctor, hmv, view.cbegin, view.cend,
    filter, List.append_nil]

/-- C7: for every `S` and `P`, building `S | filter(P)` makes no predicate call
(its trace is empty); the first `begin()` on the result is what calls `P`: on
the elements of `S` up to and including the first accepted one, so first of all
on the first element of `S` when there is one. -/
theorem single_filter_is_lazy {α : Type} (S : List α) (P : α → Bool) (tmp ret : Addr) :
    ∃ V, pipe S tmp ret .vector (filter P) = some (V, []) ∧
      ∃ b V2 t, V.cbegin S ret = some (b, V2, t) ∧
        t = calls ret (S.take (seek P S 0 + 1)) ∧
        t.head? = S.head?.map (fun x => (ret, x)) := by
  refine ⟨filter_over_vector S P ret 0, rfl, _, _, _, cbegin_trace S P ret, rfl, ?_⟩
  cases S with
  | nil => rfl
  | cons x xs => simp [calls]

/-- C8, refuted as stated: building `[1] | filter(even) | filter(> 10)` calls
the first predicate on the element `1` twice before any `begin()` on the
result, once in the object at `⟨3, 1⟩` and once in the object at `⟨4, 2⟩`. -/
theorem chain_construction_calls_predicate :
    (chain ([1] : List Int) (fun i => Int.tmod i 2 == 0) [fun i => decide (i > 10)]).map
        (fun r => r.2) = some [(⟨3, 1⟩, 1), (⟨4, 2⟩, 1)] ∧
      (chain ([1] : List Int) (fun i => Int.tmod i 2 == 0) [fun i => decide (i > 10)]).map
        (fun r => r.2) ≠ some [] := by
  decide

/-- C8, amended: building `S | filter(P1) | filter(P2)` never calls `P2` (no
call is made by the outer `filter_view`, which lives at `⟨4, 0⟩`), and calls `P1`
only inside `begin()` of the adopted first stage, which the owning `all_view`
runs in its constructor (first stage at `⟨3, 1⟩`) and again in its move
constructor (first stage at `⟨4, 2⟩`): each time on the elements of `S` up to
and including the first one `P1` accepts; on an empty `S` no call is made.  The
result is a `filter_view` owning an owning `all_view` that owns the first
`filter_view`. -/
theorem two_stage_construction_calls {α : Type} (S : List α) (P1 P2 : α → Bool) :
    ∃ t, chain S P1 [P2]
        = some (.filter_view
            (.all_view (filter_over_vector S P1 ⟨4, 2⟩ (seek P1 S 0))
              (.filt (.vec (seek P1 S 0)) ⟨4, 2⟩) (.filt (.vec S.length) ⟨4, 2⟩))
            P2 (.filt (.filt (.vec (seek P1 S 0)) ⟨4, 2⟩) ⟨4, 0⟩)
            (.filt (.filt (.vec S.length) ⟨4, 2⟩) ⟨4, 0⟩), t) ∧
      t = calls ⟨3, 1⟩ (S.take (seek P1 S 0 + 1)) ++ calls ⟨4, 2⟩ (S.take (seek P1 S 0 + 1)) ∧
      (∀ e ∈ t, e.1 ≠ (⟨4, 0⟩ : Addr)) ∧ (S = [] → t = []) := by
  have h1 : pipe S ⟨2 * 0 + 1, 0⟩ ⟨2 * 0 + 2, 0⟩ .vector (filter P1)
      = some (filter_over_vector S P1 ⟨2 * 0 + 2, 0⟩ 0, []) := rfl
  have h2 := pipe_over_stage S P1 P2 ⟨2 * 0 + 2, 0⟩ ⟨2 * (0 + 1) + 1, 0⟩ ⟨2 * (0 + 1) + 2, 0⟩ 0
  refine ⟨_, ?_, rfl, ?_, ?_⟩
  · simp only [chain, chain_from, h1, h2, List.nil_append, List.append_nil]
    rfl
  · intro e he
    simp only [calls, List.mem_append, List.mem_map] at he
    rcases he with ⟨x, _, rfl⟩ | ⟨x, _, rfl⟩ <;> simp
  · intro hS
    subst hS
    rfl

theorem elems_spec {α : Type} (S : List α) (a : Addr) (V : view α) (hW : WF S a V) :
    elems S a V = some (S.filter (allp V.preds)) := by
  obtain ⟨V2, t, h, _, _⟩ := traverse_spec S a V hW
  simp only [elems, h, Option.map_some']

/-- C9, the move-construction half: for every chain `V` built over `S` and not
yet traversed, the `filter_view` move-constructed from `V` at any address `a`,
and the owning `all_view` move-constructed at `a` from an `all_view` that
adopted `V`, are built successfully, satisfy the class invariant at `a` (their
cached iterators are iterators of the new object), traverse to the same list
as `V` does, and the back-pointer of their `m_begin` and `m_end` designates the
`filter_view` at its new address (`a`, respectively `a.member`). -/
theorem move_constructed_view_traverses_identically {α : Type} (S : List α) (p : α → Bool)
    (ps : List (α → Bool)) (tmp a : Addr) :
    ∃ V t, chain S p ps = some (V, t) ∧
      elems S (chain_addr ps) V = some (S.filter (allp (p :: ps))) ∧
      (∃ V2 t2, view.move_ctor S a V = some (V2, t2) ∧ WF S a V2 ∧
        elems S a V2 = some (S.filter (allp (p :: ps))) ∧
        V2.m_begin.owner = some a ∧ V2.cend.owner = some a) ∧
      (∃ A t3 A2 t4, all_view.ctor S tmp (.rvalue V) = some (A, t3) ∧
        view.move_ctor S a A = some (A2, t4) ∧ WF S a A2 ∧
        elems S a A2 = some (S.filter (allp (p :: ps))) ∧
        A2.m_begin.owner = some a.member ∧ A2.cend.owner = some a.member) := by
  obtain ⟨V, t, h, hW, hp, hk⟩ := chain_spec S p ps
  have hallp : allp (p :: ps).reverse = allp (p :: ps) := funext (allp_reverse (p :: ps))
  obtain ⟨V2, t2, h2, hW2, hp2, hit2⟩ := move_ctor_spec S (chain_addr ps) a V hW
  obtain ⟨A, t3, h3, hW3, hp3, hit3⟩ := all_view_ctor_rvalue S (chain_addr ps) tmp V hW
  obtain ⟨A2, t4, h4, hW4, hp4, hit4⟩ := move_ctor_spec S tmp a A hW3
  refine ⟨V, t, h, ?_, ⟨V2, t2, h2, hW2, ?_, ?_, ?_⟩, ⟨A, t3, A2, t4, h3, h4, hW4, ?_, ?_, ?_⟩⟩
  · rw [elems_spec S _ V hW, hp, hallp]
  · rw [elems_spec S _ V2 hW2, hp2, hp, hallp]
  · obtain ⟨i, hi⟩ := hW2.m_begin_eq
    rw [hi, hit2, itOf_owner _ _ _ hk]
  · rw [hW2.cend_eq, hit2, itOf_owner _ _ _ hk]
  · rw [elems_spec S _ A2 hW4, hp4, hp3, hp, hallp]
  · obtain ⟨i, hi⟩ := hW4.m_begin_eq
    rw [hi, hit4, hit3, itOf_owner _ _ _ hk]
  · rw [hW4.cend_eq, hit4, hit3, itOf_owner _ _ _ hk]

/-- C10: the borrowing `all_view` of `S` is built without a predicate call and
traverses to exactly `S`; and for every well-formed view `V` (living at `a₀`),
the owning `all_view` built from `V` at `a` traverses to the list `V` itself
traverses to. -/
theorem adoption_is_identity {α : Type} (S : List α) (a₀ a : Addr) (V : view α)
    (hW : WF S a₀ V) :
    (∃ A, all_view.ctor S a (.vector : range α) = some (A, []) ∧ elems S a A = some S) ∧
      ∃ A t xs, all_view.ctor S a (.rvalue V) = some (A, t) ∧ elems S a A = some xs ∧
        elems S a₀ V = some xs := by
  refine ⟨?_, ?_⟩
  · obtain ⟨A, h, hWA, hp⟩ := all_view_ctor_vector S a
    refine ⟨A, h, ?_⟩
    rw [elems_spec S a A hWA, hp]
    congr 1
    exact List.filter_eq_self.mpr (fun x _ => allp_nil x)
  · obtain ⟨A, t, h, hWA, hp, _⟩ := all_view_ctor_rvalue S a₀ a V hW
    refine ⟨A, t, _, h, ?_, elems_spec S a₀ V hW⟩
    rw [elems_spec S a A hWA, hp]

/-- Witness of C10: the single stage `[1, 2, 3] | filter(> 1)` living at `⟨2, 0⟩`
is a well-formed view, adopted at `⟨3, 0⟩`. -/
theorem adoption_is_identity_witness :
    WF ([1, 2, 3] : List Int) ⟨2, 0⟩
        (filter_over_vector [1, 2, 3] (fun i => decide (i > 1)) ⟨2, 0⟩ 0) ∧
      ((∃ A, all_view.ctor ([1, 2, 3] : List Int) ⟨3, 0⟩ (.vector : range Int) = some (A, []) ∧
          elems [1, 2, 3] ⟨3, 0⟩ A = some [1, 2, 3]) ∧
        ∃ A t xs, all_view.ctor ([1, 2, 3] : List Int) ⟨3, 0⟩
            (.rvalue (filter_over_vector [1, 2, 3] (fun i => decide (i > 1)) ⟨2, 0⟩ 0))
            = some (A, t) ∧
          elems [1, 2, 3] ⟨3, 0⟩ A = some xs ∧
          elems [1, 2, 3] ⟨2, 0⟩
            (filter_over_vector [1, 2, 3] (fun i => decide (i > 1)) ⟨2, 0⟩ 0) = some xs) :=
  ⟨⟨⟨rfl, rfl⟩, rfl, 0, rfl, Nat.zero_le _, fun _ _ => rfl⟩,
    adoption_is_identity _ _ _ _ ⟨⟨rfl, rfl⟩, rfl, 0, rfl, Nat.zero_le _, fun _ _ => rfl⟩⟩

/-! ## Single steps of a filter iterator -/

/-- No position before `seek p S i` holds an element satisfying `p`. -/
theorem seek_lt_not {α : Type} (p : α → Bool) (S : List α) (i k : Nat) (x : α)
    (hik : i ≤ k) (hk : k < seek p S i) (hx : S[k]? = some x) : p x = false := by
  cases hp : p x with
  | false => rfl
  | true =>
    have h1 := seek_between p S _ i k (le_refl _) hik (Nat.le_of_lt hk)
    rw [seek_hit p S k x hx hp] at h1
    omega

/-- Pre-increment of the end iterator of a `filter_view`: the loop condition
fails at once; the iterator is returned as it is and no predicate is called. -/
theorem incr_end {α : Type} (S : List α) (a : Addr) (U : view α) (P : α → Bool)
    (b e m_iter : iterator) (hend : m_iter.eq U.cend = true) :
    (iterator.filt m_iter a).incr S ⟨a, .filter_view U P b e⟩
      = some (.filt m_iter a, []) := by
  simp only [iterator.incr, iterator.depth, iterator.incr_at]
  unfold filter_view.iterator.incr_loop
  simp only [Heap.deref_base, hend, if_true]

/-- C12: for every well-formed `filter_view` with predicate `P` over an upstream
view `U`, and every iterator of it at a position `i` of `S` before the end,
pre-increment succeeds and moves the iterator to a position `j > i` that is
the end or holds an element passing the upstream stages and `P`; no position
strictly between `i` and `j` that the upstream yields (its element passes the
upstream stages) holds an element accepted by `P`.  So `j` is the least
upstream position after `i` accepted by `P`, or the end. -/
theorem pre_increment_advances {α : Type} (S : List α) (a : Addr) (U : view α)
    (P : α → Bool) (b e : iterator) (hW : WF S a (.filter_view U P b e)) (i : Nat)
    (hi : i < S.length) :
    ∃ j t, (iterator.filt (itOf a.member U i) a).incr S ⟨a, .filter_view U P b e⟩
        = some (.filt (itOf a.member U j) a, t) ∧
      i < j ∧ j ≤ S.length ∧
      (∀ x, S[j]? = some x → P x = true ∧ allp U.preds x = true) ∧
      ∀ k x, i < k → k < j → S[k]? = some x → allp U.preds x = true → P x = false := by
  obtain ⟨t, ht⟩ := incr_spec S ⟨a, .filter_view U P b e⟩ _ a (Heap.deref_base _ _) hW i hi
  refine ⟨seek (allp (P :: U.preds)) S (i + 1), t, ht, ?_, ?_, ?_, ?_⟩
  · have := seek_ge (allp (P :: U.preds)) S (i + 1)
    omega
  · exact seek_le _ _ _ (by omega)
  · intro x hx
    have := seek_sat (allp (P :: U.preds)) S _ (i + 1) (le_refl _) x hx
    rw [allp_cons] at this
    simpa using this
  · intro k x hik hkj hx hup
    have := seek_lt_not (allp (P :: U.preds)) S (i + 1) k x (by omega) hkj hx
    rw [allp_cons, hup] at this
    simpa using this

/-- Witness of C12: the iterator at position 0 of `[1, 2, 3, 4] | filter(even)`. -/
theorem pre_increment_advances_witness :
    ∃ j t, (iterator.filt (itOf (Addr.member ⟨2, 0⟩)
          (view.all_view_ref (.vec 0) (.vec 4) : view Int) 0) ⟨2, 0⟩).incr
          ([1, 2, 3, 4] : List Int)
          ⟨⟨2, 0⟩, .filter_view (.all_view_ref (.vec 0) (.vec 4))
            (fun i => Int.tmod i 2 == 0) (.filt (.vec 0) ⟨2, 0⟩) (.filt (.vec 4) ⟨2, 0⟩)⟩
        = some (.filt (itOf (Addr.member ⟨2, 0⟩)
            (view.all_view_ref (.vec 0) (.vec 4) : view Int) j) ⟨2, 0⟩, t) ∧
      0 < j ∧ j ≤ ([1, 2, 3, 4] : List Int).length ∧
      (∀ x, ([1, 2, 3, 4] : List Int)[j]? = some x →
        (fun i => Int.tmod i 2 == 0) x = true ∧
          allp (view.all_view_ref (.vec 0) (.vec 4) : view Int).preds x = true) ∧
      ∀ k x, 0 < k → k < j → ([1, 2, 3, 4] : List Int)[k]? = some x →
        allp (view.all_view_ref (.vec 0) (.vec 4) : view Int).preds x = true →
        (fun i => Int.tmod i 2 == 0) x = false :=
  pre_increment_advances [1, 2, 3, 4] ⟨2, 0⟩ (.all_view_ref (.vec 0) (.vec 4))
    (fun i => Int.tmod i 2 == 0) (.filt (.vec 0) ⟨2, 0⟩) (.filt (.vec 4) ⟨2, 0⟩)
    ⟨⟨rfl, rfl⟩, rfl, 0, rfl, Nat.zero_le _, fun _ _ => rfl⟩ 0 (by decide)

/-- C16: for every well-formed `filter_view` and every iterator of it that is
equal to `end()`, pre-increment succeeds (no error), returns the iterator
unchanged, hence still equal to `end()`, and calls no predicate.  It cannot
have dereferenced the upstream either: in the model dereferencing the end
position fails. -/
theorem pre_increment_at_end_is_noop {α : Type} (S : List α) (a : Addr) (U : view α)
    (P : α → Bool) (b e m_iter : iterator) (hW : WF S a (.filter_view U P b e))
    (hend : (iterator.filt m_iter a).eq e = true) :
    (iterator.filt m_iter a).incr S ⟨a, .filter_view U P b e⟩
        = some (.filt m_iter a, []) ∧
      (iterator.filt m_iter a).eq (view.filter_view U P b e).cend = true ∧
      (iterator.filt (itOf a.member U S.length) a).deref S = none := by
  have he : e = .filt (itOf a.member U S.length) a := hW.2.1
  refine ⟨incr_end S a U P b e m_iter ?_, hend, ?_⟩
  · rw [he] at hend
    rw [hW.1.cend_eq]
    exact hend
  · simp only [iterator.deref, itOf_deref]
    exact List.getElem?_eq_none_iff.mpr (le_refl _)

/-- Witness of C16: the end iterator of `[1, 2, 3, 4] | filter(even)`. -/
theorem pre_increment_at_end_is_noop_witness :
    (iterator.filt (.vec 4) ⟨2, 0⟩).incr ([1, 2, 3, 4] : List Int)
        ⟨⟨2, 0⟩, .filter_view (.all_view_ref (.vec 0) (.vec 4))
          (fun i => Int.tmod i 2 == 0) (.filt (.vec 0) ⟨2, 0⟩) (.filt (.vec 4) ⟨2, 0⟩)⟩
        = some (.filt (.vec 4) ⟨2, 0⟩, []) ∧
      (iterator.filt (.vec 4) ⟨2, 0⟩).eq
        (view.filter_view (.all_view_ref (.vec 0) (.vec 4))
          (fun i : Int => Int.tmod i 2 == 0) (.filt (.vec 0) ⟨2, 0⟩)
          (.filt (.vec 4) ⟨2, 0⟩)).cend = true ∧
      (iterator.filt (itOf (Addr.member ⟨2, 0⟩)
          (view.all_view_ref (.vec 0) (.vec 4) : view Int)
          ([1, 2, 3, 4] : List Int).length) ⟨2, 0⟩).deref ([1, 2, 3, 4] : List Int) = none :=
  pre_increment_at_end_is_noop [1, 2, 3, 4] ⟨2, 0⟩ (.all_view_ref (.vec 0) (.vec 4))
    (fun i => Int.tmod i 2 == 0) (.filt (.vec 0) ⟨2, 0⟩) (.filt (.vec 4) ⟨2, 0⟩) (.vec 4)
    ⟨⟨rfl, rfl⟩, rfl, 0, rfl, Nat.zero_le _, fun _ _ => rfl⟩ rfl

/-! ## Repeated `begin()` and repeated pre-increment -/

/-- `begin()` of a `filter_view` changes nothing but the stored `m_begin`, which
becomes the iterator it returns. -/
theorem cbegin_shape {α : Type} (S : List α) (a : Addr) (U : view α) (P : α → Bool)
    (b e c : iterator) (V2 : view α) (t : Trace α)
    (h : (view.filter_view U P b e).cbegin S a = some (c, V2, t)) :
    V2 = .filter_view U P c e := by
  simp only [view.cbegin] at h
  split at h
  · cases h; rfl
  · split at h
    · cases h
    · split at h
      · cases h; rfl
      · split at h
        · cases h
        · cases h; rfl

/-- `begin()` on a `filter_view` whose `m_begin` already stands on the first
element passing all stages (or at the end): nothing moves, and the predicate is
called at most once. -/
theorem cbegin_fixed {α : Type} (S : List α) (a : Addr) (U : view α) (P : α → Bool)
    (e : iterator) (he : e = .filt (itOf a.member U S.length) a) :
    ∃ t, (view.filter_view U P
          (.filt (itOf a.member U (seek (allp (P :: U.preds)) S 0)) a) e).cbegin S a
        = some (.filt (itOf a.member U (seek (allp (P :: U.preds)) S 0)) a,
            .filter_view U P (.filt (itOf a.member U (seek (allp (P :: U.preds)) S 0)) a) e,
            t) ∧
      t.length ≤ 1 := by
  subst he
  have hle : seek (allp (P :: U.preds)) S 0 ≤ S.length := seek_le _ _ _ (Nat.zero_le _)
  have hsat := fun x => seek_sat (allp (P :: U.preds)) S _ 0 (le_refl _) x
  simp only [view.cbegin, iterator.eq, iterator.deref, itOf_eq, itOf_deref]
  generalize seek (allp (P :: U.preds)) S 0 = f at hle hsat
  by_cases hlt : f < S.length
  · have hne : (f == S.length) = false := by simp; omega
    have hget : S[f]? = some S[f] := List.getElem?_eq_getElem hlt
    have hP : P S[f] = true := by
      have := hsat _ hget
      rw [allp_cons] at this
      simp at this
      exact this.1
    simp only [hne, Bool.false_eq_true, if_false, hget, hP, if_true]
    exact ⟨_, rfl, by simp⟩
  · have hbe : (f == S.length) = true := by simp; omega
    simp only [hbe, if_true]
    exact ⟨_, rfl, by simp⟩

/-- Any number of pre-increments of an iterator of a well-formed `filter_view`
that stands on an element passing all stages (or at the end) succeeds and
leaves it on such an element or at the end, not before where it was. -/
theorem incr_n_spec {α : Type} (S : List α) (a : Addr) (U : view α) (P : α → Bool)
    (b e : iterator) (hW : WF S a (.filter_view U P b e)) (n i : Nat) (hi : i ≤ S.length)
    (hsat : ∀ x, S[i]? = some x → allp (P :: U.preds) x = true) :
    ∃ j, iterator.incr_n S ⟨a, .filter_view U P b e⟩ n (.filt (itOf a.member U i) a)
        = some (.filt (itOf a.member U j) a) ∧
      i ≤ j ∧ j ≤ S.length ∧ ∀ x, S[j]? = some x → allp (P :: U.preds) x = true := by
  induction n generalizing i with
  | zero => exact ⟨i, rfl, le_refl _, hi, hsat⟩
  | succ n ih =>
    by_cases hlt : i < S.length
    · obtain ⟨t, ht⟩ := incr_spec S ⟨a, .filter_view U P b e⟩ _ a (Heap.deref_base _ _) hW i hlt
      simp only [itOf, view.preds] at ht
      obtain ⟨j, hj, hij, hjl, hjs⟩ := ih (seek (allp (P :: U.preds)) S (i + 1))
        (seek_le _ _ _ (by omega)) (fun x hx => seek_sat _ S _ (i + 1) (le_refl _) x hx)
      refine ⟨j, ?_, ?_, hjl, hjs⟩
      · simp only [iterator.incr_n, ht, hj]
      · have := seek_ge (allp (P :: U.preds)) S (i + 1)
        omega
    · have hie : i = S.length := by omega
      have hend := incr_end S a U P b e (itOf a.member U i)
        (by rw [hW.1.cend_eq, itOf_eq, hie]; simp)
      obtain ⟨j, hj, hij, hjl, hjs⟩ := ih i hi hsat
      exact ⟨j, by simp only [iterator.incr_n, hend, hj], hij, hjl, hjs⟩

/-- C13: for every well-formed `filter_view` with predicate `P` and every `n`,
`begin()` followed by `n` pre-increments succeeds, and if the iterator obtained
is not equal to `end()`, dereferencing it yields an element that satisfies `P`. -/
theorem non_end_cursor_satisfies_predicate {α : Type} (S : List α) (a : Addr) (U : view α)
    (P : α → Bool) (b e : iterator) (hW : WF S a (.filter_view U P b e)) (n : Nat) :
    ∃ c₀ V2 t c, (view.filter_view U P b e).cbegin S a = some (c₀, V2, t) ∧
      iterator.incr_n S ⟨a, V2⟩ n c₀ = some c ∧
      (c.eq V2.cend = false → ∃ x, c.deref S = some x ∧ P x = true) := by
  obtain ⟨V2, t, h, hW2, _, _⟩ := cbegin_spec S a _ hW
  have hV2 := cbegin_shape S a U P b e _ V2 t h
  subst hV2
  obtain ⟨j, hj, _, hjl, hjs⟩ := incr_n_spec S a U P _ e hW2 n
    (seek (allp (P :: U.preds)) S 0) (seek_le _ _ _ (Nat.zero_le _))
    (fun x hx => seek_sat _ S _ 0 (le_refl _) x hx)
  refine ⟨_, _, t, _, h, hj, ?_⟩
  intro hne
  have he : e = .filt (itOf a.member U S.length) a := hW.2.1
  simp only [view.cend, he, iterator.eq, itOf_eq] at hne
  have hlt : j < S.length := by
    have : j ≠ S.length := by simpa using hne
    omega
  refine ⟨S[j], ?_, ?_⟩
  · simp only [iterator.deref, itOf_deref]
    exact List.getElem?_eq_getElem hlt
  · have := hjs _ (List.getElem?_eq_getElem hlt)
    rw [allp_cons] at this
    simp at this
    exact this.1

/-- Witness of C13: `begin()` and two pre-increments on
`[1, 2, 3, 4] | filter(even)`. -/
theorem non_end_cursor_satisfies_predicate_witness :
    ∃ c₀ V2 t c,
      (view.filter_view (.all_view_ref (.vec 0) (.vec 4)) (fun i : Int => Int.tmod i 2 == 0)
          (.filt (.vec 0) ⟨2, 0⟩) (.filt (.vec 4) ⟨2, 0⟩)).cbegin [1, 2, 3, 4] ⟨2, 0⟩
        = some (c₀, V2, t) ∧
      iterator.incr_n ([1, 2, 3, 4] : List Int) ⟨⟨2, 0⟩, V2⟩ 2 c₀ = some c ∧
      (c.eq V2.cend = false →
        ∃ x, c.deref ([1, 2, 3, 4] : List Int) = some x ∧
          (fun i : Int => Int.tmod i 2 == 0) x = true) :=
  non_end_cursor_satisfies_predicate [1, 2, 3, 4] ⟨2, 0⟩ (.all_view_ref (.vec 0) (.vec 4))
    (fun i => Int.tmod i 2 == 0) (.filt (.vec 0) ⟨2, 0⟩) (.filt (.vec 4) ⟨2, 0⟩)
    ⟨⟨rfl, rfl⟩, rfl, 0, rfl, Nat.zero_le _, fun _ _ => rfl⟩ 2

/-- C14: for every well-formed `filter_view`, the first `begin()` returns the
iterator on the first position of `S` whose element passes the upstream stages
and the predicate (the end position when there is none) and stores it in
`m_begin`; a repeated `begin()` on the view as the first call left it returns
the same iterator and leaves the view, `m_begin` included, exactly as it was,
calling the predicate at most once (no skipping is done again).  As the view is
unchanged, the same holds for every further call. -/
theorem begin_is_idempotent {α : Type} (S : List α) (a : Addr) (U : view α)
    (P : α → Bool) (b e : iterator) (hW : WF S a (.filter_view U P b e)) :
    ∃ c V2 t, (view.filter_view U P b e).cbegin S a = some (c, V2, t) ∧
      c = .filt (itOf a.member U (seek (allp (P :: U.preds)) S 0)) a ∧
      V2.m_begin = c ∧
      ∃ t2, V2.cbegin S a = some (c, V2, t2) ∧ t2.length ≤ 1 := by
  obtain ⟨V2, t, h, _, _, _⟩ := cbegin_spec S a _ hW
  have hV2 := cbegin_shape S a U P b e _ V2 t h
  subst hV2
  obtain ⟨t2, h2, hlen⟩ := cbegin_fixed S a U P e hW.2.1
  exact ⟨_, _, t, h, rfl, rfl, t2, h2, hlen⟩

/-- Witness of C14: `[1, 2, 3, 4] | filter(even)` before its first `begin()`. -/
theorem begin_is_idempotent_witness :
    ∃ c V2 t,
      (view.filter_view (.all_view_ref (.vec 0) (.vec 4)) (fun i : Int => Int.tmod i 2 == 0)
          (.filt (.vec 0) ⟨2, 0⟩) (.filt (.vec 4) ⟨2, 0⟩)).cbegin [1, 2, 3, 4] ⟨2, 0⟩
        = some (c, V2, t) ∧
      c = .filt (itOf (Addr.member ⟨2, 0⟩) (view.all_view_ref (.vec 0) (.vec 4) : view Int)
          (seek (allp ((fun i : Int => Int.tmod i 2 == 0) ::
            (view.all_view_ref (.vec 0) (.vec 4) : view Int).preds)) [1, 2, 3, 4] 0))
          ⟨2, 0⟩ ∧
      V2.m_begin = c ∧
      ∃ t2, V2.cbegin ([1, 2, 3, 4] : List Int) ⟨2, 0⟩ = some (c, V2, t2) ∧ t2.length ≤ 1 :=
  begin_is_idempotent [1, 2, 3, 4] ⟨2, 0⟩ (.all_view_ref (.vec 0) (.vec 4))
    (fun i => Int.tmod i 2 == 0) (.filt (.vec 0) ⟨2, 0⟩) (.filt (.vec 4) ⟨2, 0⟩)
    ⟨⟨rfl, rfl⟩, rfl, 0, rfl, Nat.zero_le _, fun _ _ => rfl⟩

/-! ## Whole traversals -/

/-! ### The operations leave the memory as they found it -/

theorem store_deref_eq {α : Type} (v : List α) (it : iterator) :
    Store.deref v it = (iterator.deref v it).map (fun x => (x, v)) := by
  induction it with
  | vec i =>
    simp only [Store.deref, vector.load, iterator.deref]
    cases v[i]? <;> rfl
  | filt m_iter m_view ih => simpa only [Store.deref, iterator.deref] using ih

theorem store_incr_loop_eq {α : Type} (H : Heap α)
    (up_m : List α → iterator → Option ((iterator × Trace α) × List α))
    (up : iterator → Option (iterator × Trace α)) (a : Addr) (v : List α)
    (hup : ∀ it, up_m v it = (up it).map (fun r => (r, v))) (fuel : Nat) (it : iterator) :
    Store.incr_loop H up_m a fuel v it
      = (filter_view.iterator.incr_loop v H up a fuel it).map (fun r => (r, v)) := by
  induction fuel generalizing it with
  | zero => rfl
  | succ fuel ih =>
    unfold Store.incr_loop filter_view.iterator.incr_loop
    cases hd : H.deref a with
    | none => rfl
    | some W =>
      cases W with
      | all_view_ref b e => rfl
      | all_view U b e => rfl
      | filter_view up0 m_pred b e =>
        simp only
        cases h1 : it.eq up0.cend with
        | true => simp only [if_true, Option.map_some']
        | false =>
          simp only [Bool.false_eq_true, if_false, hup]
          cases hu : up it with
          | none => rfl
          | some r =>
            obtain ⟨it2, t⟩ := r
            simp only [Option.map_some']
            cases h2 : it2.eq up0.cend with
            | true =>
              simp only [if_true, ih, Option.map_map]
              rfl
            | false =>
              simp only [Bool.false_eq_true, if_false, store_deref_eq]
              cases hx : iterator.deref v it2 with
              | none => rfl
              | some x =>
                simp only [Option.map_some']
                cases h3 : m_pred x with
                | true => simp only [if_true, Option.map_some']
                | false =>
                  simp only [Bool.false_eq_true, if_false, ih, Option.map_map]
                  rfl

theorem store_incr_at_eq {α : Type} (H : Heap α) (d : Nat) (v : List α) (it : iterator) :
    Store.incr_at H d v it = (iterator.incr_at v H d it).map (fun r => (r, v)) := by
  induction d generalizing it with
  | zero =>
    cases it with
    | vec i =>
      simp only [Store.incr_at, iterator.incr_at]
      by_cases h : i < v.length
      · simp only [h, if_true, Option.map_some']
      · simp only [h, if_false, Option.map_none']
    | filt m_iter m_view => rfl
  | succ d ih =>
    cases it with
    | vec i => rfl
    | filt m_iter m_view =>
      simp only [Store.incr_at, iterator.incr_at,
        store_incr_loop_eq H (Store.incr_at H d) (iterator.incr_at v H d) m_view v
          (fun it => ih it)]
      cases filter_view.iterator.incr_loop v H (iterator.incr_at v H d) m_view
        (v.length + 1) m_iter with
      | none => rfl
      | some r => rfl

theorem store_incr_eq {α : Type} (H : Heap α) (v : List α) (it : iterator) :
    Store.incr H v it = (iterator.incr v H it).map (fun r => (r, v)) :=
  store_incr_at_eq H it.depth v it

theorem store_cbegin_eq {α : Type} (this : Addr) (v : List α) (V : view α) :
    Store.cbegin this v V = (view.cbegin v this V).map (fun r => (r, v)) := by
  cases V with
  | all_view_ref b e => rfl
  | all_view U b e => rfl
  | filter_view U P b e =>
    simp only [Store.cbegin, view.cbegin]
    cases h1 : b.eq e with
    | true => simp only [if_true, Option.map_some']
    | false =>
      simp only [Bool.false_eq_true, if_false, store_deref_eq]
      cases hx : iterator.deref v b with
      | none => rfl
      | some x =>
        simp only [Option.map_some']
        cases h3 : P x with
        | true => simp only [if_true, Option.map_some']
        | false =>
          simp only [Bool.false_eq_true, if_false, store_incr_eq]
          cases iterator.incr v ⟨this, .filter_view U P b e⟩ b with
          | none => rfl
          | some r => rfl

theorem store_move_ctor_eq {α : Type} (this : Addr) (v : List α) (V : view α) :
    Store.move_ctor this v V = (view.move_ctor v this V).map (fun r => (r, v)) := by
  induction V generalizing this with
  | all_view_ref b e => rfl
  | all_view U b e ih =>
    simp only [Store.move_ctor, view.move_ctor, ih]
    cases view.move_ctor v this.member U with
    | none => rfl
    | some r =>
      obtain ⟨m_view, t₁⟩ := r
      simp only [Option.map_some', store_cbegin_eq]
      cases view.cbegin v this.member m_view with
      | none => rfl
      | some r2 => rfl
  | filter_view U P b e ih =>
    simp only [Store.move_ctor, view.move_ctor, ih]
    cases view.move_ctor v this.member U with
    | none => rfl
    | some r =>
      obtain ⟨m_view, t₁⟩ := r
      simp only [Option.map_some', store_cbegin_eq]
      cases view.cbegin v this.member m_view with
      | none => rfl
      | some r2 => rfl

theorem store_all_view_ctor_eq {α : Type} (this : Addr) (v : List α) (r : range α) :
    Store.all_view_ctor this v r = (all_view.ctor v this r).map (fun x => (x, v)) := by
  cases r with
  | vector => rfl
  | rvalue V =>
    simp only [Store.all_view_ctor, all_view.ctor, store_move_ctor_eq]
    cases view.move_ctor v this.member V with
    | none => rfl
    | some r =>
      obtain ⟨m_view, t₁⟩ := r
      simp only [Option.map_some', store_cbegin_eq]
      cases view.cbegin v this.member m_view with
      | none => rfl
      | some r2 => rfl

theorem store_filter_view_ctor_eq {α : Type} (this : Addr) (mem : List α) (v : view α)
    (f : α → Bool) :
    Store.filter_view_ctor this mem v f
      = (filter_view.ctor mem this v f).map (fun x => (x, mem)) := by
  simp only [Store.filter_view_ctor, filter_view.ctor, store_move_ctor_eq]
  cases view.move_ctor mem this.member v with
  | none => rfl
  | some r =>
    obtain ⟨m_view, t₁⟩ := r
    simp only [Option.map_some', store_cbegin_eq]
    cases view.cbegin mem this.member m_view with
    | none => rfl
    | some r2 => rfl

theorem store_pipe_eq {α : Type} (tmp ret : Addr) (v : List α) (r : range α)
    (fn : filter_fn α) :
    Store.pipe tmp ret v r fn = (pipe v tmp ret r fn).map (fun x => (x, v)) := by
  simp only [Store.pipe, pipe, filter_fn.call, store_all_view_ctor_eq]
  cases all_view.ctor v tmp r with
  | none => rfl
  | some x =>
    obtain ⟨a, t₁⟩ := x
    simp only [Option.map_some', store_filter_view_ctor_eq]
    cases filter_view.ctor v ret a fn.m_func with
    | none => rfl
    | some y => rfl

theorem store_chain_from_eq {α : Type} (ps : List (α → Bool)) (k : Nat) (v : List α)
    (r : range α) :
    Store.chain_from k v r ps = (chain_from v k r ps).map (fun x => (x, v)) := by
  induction ps generalizing k r with
  | nil => rfl
  | cons p ps ih =>
    simp only [Store.chain_from, chain_from, store_pipe_eq]
    cases pipe v ⟨2 * k + 1, 0⟩ ⟨2 * k + 2, 0⟩ r (filter p) with
    | none => rfl
    | some x =>
      obtain ⟨V, t₁⟩ := x
      simp only [Option.map_some', ih]
      cases chain_from v (k + 1) (.rvalue V) ps with
      | none => rfl
      | some y => rfl

theorem store_for_loop_eq {α : Type} (H : Heap α) (e : iterator) (fuel : Nat) (v : List α)
    (it : iterator) :
    Store.for_loop H e fuel v it = (for_loop v H e fuel it).map (fun x => (x, v)) := by
  induction fuel generalizing it with
  | zero => rfl
  | succ fuel ih =>
    unfold Store.for_loop for_loop
    cases h1 : it.eq e with
    | true => simp only [if_true, Option.map_some']
    | false =>
      simp only [Bool.false_eq_true, if_false, store_deref_eq]
      cases iterator.deref v it with
      | none => rfl
      | some x =>
        simp only [Option.map_some', store_incr_eq]
        cases iterator.incr v H it with
        | none => rfl
        | some r =>
          obtain ⟨it2, t⟩ := r
          simp only [Option.map_some', ih]
          cases for_loop v H e fuel it2 with
          | none => rfl
          | some y => rfl

theorem store_traverse_eq {α : Type} (this : Addr) (v : List α) (V : view α) :
    Store.traverse this v V = (traverse v this V).map (fun x => (x, v)) := by
  simp only [Store.traverse, traverse, store_cbegin_eq]
  cases view.cbegin v this V with
  | none => rfl
  | some r =>
    obtain ⟨b, V2, t₁⟩ := r
    simp only [Option.map_some', store_for_loop_eq]
    cases for_loop v ⟨this, V2⟩ V2.cend (v.length + 1) b with
    | none => rfl
    | some y => rfl

/-- C11: for every vector `S` and every chain of filter stages built over it by
borrowing, the program that builds the chain and traverses it completely, every
operation handing the vector in memory on to the next, finishes, and the vector
it ends with is `S`: same length, same element at every position.  (The
elements seen are those of `S` passing all predicates.) -/
theorem borrowed_vector_unchanged {α : Type} (S : List α) (p : α → Bool)
    (ps : List (α → Bool)) :
    ∃ m : Program α, run_main S p ps = some m ∧ m.v = S ∧ m.v.length = S.length ∧
      (∀ i : Nat, m.v[i]? = S[i]?) ∧ m.out = S.filter (allp (p :: ps)) := by
  obtain ⟨V, t, h, hW, hp, _⟩ := chain_spec S p ps
  obtain ⟨V2, t2, ht, _, _⟩ := traverse_spec S (chain_addr ps) V hW
  have hc : chain_from S 0 .vector (p :: ps) = some (.rvalue V, t) := by
    simp only [chain] at h
    split at h
    · next W t' heq =>
      cases h
      exact heq
    · cases h
  have hrun : run_main S p ps = some ⟨S, V2, S.filter (allp V.preds)⟩ := by
    simp only [run_main, store_chain_from_eq, hc, Option.map_some', store_traverse_eq, ht]
  refine ⟨_, hrun, rfl, rfl, fun _ => rfl, ?_⟩
  show S.filter (allp V.preds) = S.filter (allp (p :: ps))
  rw [hp]
  exact List.filter_congr (fun x _ => allp_reverse (p :: ps) x)

/-- The traversal loop over a single stage: starting on an accepted element (or
at the end) it visits the remaining accepted elements and calls the predicate
once on every element after the starting position, in order. -/
theorem for_loop_trace {α : Type} (S : List α) (P : α → Bool) (a : Addr) (f₀ : Nat)
    (fuel i : Nat) (hi : i ≤ S.length) (hf : S.length - i + 1 ≤ fuel)
    (hsat : ∀ x, S[i]? = some x → P x = true) :
    for_loop S ⟨a, filter_over_vector S P a f₀⟩ (.filt (.vec S.length) a) fuel
        (.filt (.vec i) a)
      = some ((S.drop i).filter P, calls a (S.drop (i + 1))) := by
  induction fuel generalizing i with
  | zero => omega
  | succ fuel ih =>
    unfold for_loop
    simp only [iterator.eq, iterator.deref]
    by_cases hlt : i < S.length
    · have hne : (i == S.length) = false := by simp; omega
      have hget : S[i]? = some S[i] := List.getElem?_eq_getElem hlt
      have hloop := incr_loop_trace S ⟨a, filter_over_vector S P a f₀⟩ P a (.vec 0)
        (.filt (.vec f₀) a) (.filt (.vec S.length) a) (Heap.deref_base _ _) (S.length + 1) i
        hlt (by omega)
      have hge := seek_ge P S (i + 1)
      have hrec := ih (seek P S (i + 1)) (seek_le _ _ _ (by omega)) (by omega)
        (fun x hx => seek_sat P S _ (i + 1) (le_refl _) x hx)
      simp only [hne, Bool.false_eq_true, if_false, hget, iterator.incr, iterator.depth,
        iterator.incr_at, hloop, hrec]
      rw [← filter_drop_seek P S _ (i + 1) (le_refl _), List.drop_eq_getElem_cons hlt,
        List.filter_cons_of_pos (hsat _ hget)]
      have hdrop : S.drop (seek P S (i + 1) + 1)
          = (S.drop (i + 1)).drop (seek P S (i + 1) - i) := by
        rw [List.drop_drop]
        congr 1
        omega
      simp only [calls, hdrop, ← List.map_append, List.take_append_drop]
    · have hie : i = S.length := by omega
      subst hie
      simp [calls]

/-- A full traversal of a single stage calls the predicate once on every
element of `S`, in order. -/
theorem traverse_trace {α : Type} (S : List α) (P : α → Bool) (a : Addr) :
    traverse S a (filter_over_vector S P a 0)
      = some (S.filter P, filter_over_vector S P a (seek P S 0), calls a S) := by
  have hloop := for_loop_trace S P a (seek P S 0) (S.length + 1) (seek P S 0)
    (seek_le _ _ _ (Nat.zero_le _)) (by omega)
    (fun x hx => seek_sat P S _ 0 (le_refl _) x hx)
  have hcend : (filter_over_vector S P a (seek P S 0)).cend = .filt (.vec S.length) a := rfl
  simp only [traverse, cbegin_trace, hcend, hloop]
  rw [← filter_drop_seek P S _ 0 (le_refl _)]
  simp only [calls, ← List.map_append, List.take_append_drop, List.drop_zero]

/-- C15: for every `S` and `P`, building `S | filter(P)` calls `P` not at all and
one full traversal of it calls `P` exactly on the elements of `S`, each position
once and in order, so at most `S.length` times in total; and a single
pre-increment from position `i` to position `j`, all positions strictly between
them being rejected (`j - (i + 1)` of them), calls `P` at most
`j - (i + 1) + 1` times. -/
theorem single_filter_work_bound {α : Type} (S : List α) (P : α → Bool) (tmp ret : Addr) :
    ∃ V, pipe S tmp ret .vector (filter P) = some (V, []) ∧
      (∃ xs V2 t, traverse S ret V = some (xs, V2, t) ∧ t = calls ret S ∧
        t.length ≤ S.length) ∧
      ∀ i, i < S.length →
        ∃ j t, (iterator.filt (.vec i) ret).incr S ⟨ret, V⟩ = some (.filt (.vec j) ret, t) ∧
          (∀ k x, i < k → k < j → S[k]? = some x → P x = false) ∧
          t.length ≤ j - (i + 1) + 1 := by
  refine ⟨filter_over_vector S P ret 0, rfl, ⟨_, _, _, traverse_trace S P ret, rfl, ?_⟩, ?_⟩
  · simp [calls]
  · intro i hi
    have hloop := incr_loop_trace S ⟨ret, filter_over_vector S P ret 0⟩ P ret (.vec 0)
      (.filt (.vec 0) ret) (.filt (.vec S.length) ret) (Heap.deref_base _ _) (S.length + 1) i
      hi (by omega)
    refine ⟨seek P S (i + 1), calls ret ((S.drop (i + 1)).take (seek P S (i + 1) - i)),
      ?_, ?_, ?_⟩
    · simp only [iterator.incr, iterator.depth, iterator.incr_at, hloop]
    · intro k x hik hkj hx
      exact seek_lt_not P S (i + 1) k x (by omega) hkj hx
    · have hge := seek_ge P S (i + 1)
      simp only [calls, List.length_map, List.length_take]
      omega

theorem view.is_filter_cases {α : Type} (V : view α) (h : V.is_filter = true) :
    ∃ U P b e, V = .filter_view U P b e := by
  cases V with
  | filter_view U P b e => exact ⟨U, P, b, e, rfl⟩
  | all_view_ref b e => cases h
  | all_view U b e => cases h

/-- Pre-incrementing once per remaining element that passes all stages brings an
iterator of a well-formed `filter_view` to the end. -/
theorem incr_n_reaches_end {α : Type} (S : List α) (a : Addr) (U : view α) (P : α → Bool)
    (b e : iterator) (hW : WF S a (.filter_view U P b e)) (m i : Nat)
    (hm : S.length - i ≤ m) (hi : i ≤ S.length)
    (hsat : ∀ x, S[i]? = some x → allp (P :: U.preds) x = true) :
    iterator.incr_n S ⟨a, .filter_view U P b e⟩
        ((S.drop i).filter (allp (P :: U.preds))).length (.filt (itOf a.member U i) a)
      = some (.filt (itOf a.member U S.length) a) := by
  induction m generalizing i with
  | zero =>
    have hie : i = S.length := by omega
    subst hie
    simp [iterator.incr_n]
  | succ m ih =>
    by_cases hlt : i < S.length
    · have hget : S[i]? = some S[i] := List.getElem?_eq_getElem hlt
      obtain ⟨t, ht⟩ := incr_spec S ⟨a, .filter_view U P b e⟩ _ a (Heap.deref_base _ _) hW i hlt
      simp only [itOf, view.preds] at ht
      have hge := seek_ge (allp (P :: U.preds)) S (i + 1)
      have hrec := ih (seek (allp (P :: U.preds)) S (i + 1)) (by omega)
        (seek_le _ _ _ (by omega)) (fun x hx => seek_sat _ S _ (i + 1) (le_refl _) x hx)
      rw [List.drop_eq_getElem_cons hlt, List.filter_cons_of_pos (hsat _ hget),
        filter_drop_seek _ S _ (i + 1) (le_refl _), List.length_cons]
      simp only [iterator.incr_n, ht, hrec]
    · have hie : i = S.length := by omega
      subst hie
      simp [iterator.incr_n]

/-- C17: for every `S` and every chain of filter stages over it, after
`begin()`: every pre-increment of an iterator at a position `i` before the end
succeeds (it terminates) and leaves the iterator at a position `j` with
`i < j ≤ S.length`; and some number `n ≤ S.length` of pre-increments takes the
iterator returned by `begin()` to an iterator equal to `end()`. -/
theorem traversal_terminates {α : Type} (S : List α) (p : α → Bool) (ps : List (α → Bool)) :
    ∃ V t c V2 t2, chain S p ps = some (V, t) ∧
      V.cbegin S (chain_addr ps) = some (c, V2, t2) ∧
      (∃ i₀, c = itOf (chain_addr ps) V2 i₀) ∧
      (∀ i, i < S.length →
        ∃ j t3, (itOf (chain_addr ps) V2 i).incr S ⟨chain_addr ps, V2⟩
            = some (itOf (chain_addr ps) V2 j, t3) ∧ i < j ∧ j ≤ S.length) ∧
      ∃ n c2, n ≤ S.length ∧ iterator.incr_n S ⟨chain_addr ps, V2⟩ n c = some c2 ∧
        c2.eq V2.cend = true := by
  obtain ⟨V, t, h, hW, _, hk⟩ := chain_spec S p ps
  obtain ⟨U, P, b, e, rfl⟩ := V.is_filter_cases hk
  obtain ⟨V2, t2, hb, hW2, _, _⟩ := cbegin_spec S (chain_addr ps) _ hW
  have hV2 := cbegin_shape S _ U P b e _ V2 t2 hb
  subst hV2
  refine ⟨_, t, _, _, t2, h, hb, ⟨_, rfl⟩, ?_, ?_⟩
  · intro i hi
    obtain ⟨t3, ht3⟩ := incr_spec S ⟨chain_addr ps, _⟩ _ _ (Heap.deref_base _ _) hW2 i hi
    refine ⟨_, t3, ht3, ?_, seek_le _ _ _ (by omega)⟩
    have := seek_ge (allp (view.filter_view U P
      (itOf (chain_addr ps) (view.filter_view U P b e)
        (seek (allp (view.filter_view U P b e).preds) S 0)) e).preds) S (i + 1)
    omega
  · have hreach := incr_n_reaches_end S (chain_addr ps) U P _ e hW2 _
      (seek (allp (P :: U.preds)) S 0) (le_refl _) (seek_le _ _ _ (Nat.zero_le _))
      (fun x hx => seek_sat _ S _ 0 (le_refl _) x hx)
    refine ⟨_, _, ?_, hreach, ?_⟩
    · have h1 := List.length_filter_le (allp (P :: U.preds))
        (S.drop (seek (allp (P :: U.preds)) S 0))
      rw [List.length_drop] at h1
      omega
    · have he : e = .filt (itOf (chain_addr ps).member U S.length) (chain_addr ps) := hW.2.1
      simp only [view.cend, he, iterator.eq, itOf_eq]
      simp

/-- C18: for every `S` and every chain of filter stages over it, a first
complete traversal of the view and a second traversal of the same view, as the
first one left it (its stored `m_begin` moved by `begin()`), both succeed and
yield the same list of elements; the second leaves the view as it found it. -/
theorem retraversal_is_deterministic {α : Type} (S : List α) (p : α → Bool)
    (ps : List (α → Bool)) :
    ∃ V t xs V2 t2 t3, chain S p ps = some (V, t) ∧
      traverse S (chain_addr ps) V = some (xs, V2, t2) ∧
      traverse S (chain_addr ps) V2 = some (xs, V2, t3) ∧
      xs = S.filter (allp (p :: ps)) := by
  obtain ⟨V, t, h, hW, hp, hk⟩ := chain_spec S p ps
  obtain ⟨U, P, b, e, rfl⟩ := V.is_filter_cases hk
  obtain ⟨V2, t2, hb, hW2, hp2, _⟩ := cbegin_spec S (chain_addr ps) _ hW
  have hV2 := cbegin_shape S _ U P b e _ V2 t2 hb
  subst hV2
  obtain ⟨t3, hb3, _⟩ := cbegin_fixed S (chain_addr ps) U P e hW.2.1
  obtain ⟨tl, hl⟩ := for_loop_spec S (chain_addr ps) _ hW2 (S.length + 1)
    (seek (allp (P :: U.preds)) S 0) (seek_le _ _ _ (Nat.zero_le _)) (by omega)
    (fun x hx => seek_sat _ S _ 0 (le_refl _) x hx)
  simp only [itOf, view.preds] at hb hl
  have hcend := hW2.cend_eq
  simp only [itOf, view.preds] at hcend
  refine ⟨_, t, (S.drop (seek (allp (P :: U.preds)) S 0)).filter (allp (P :: U.preds)),
    .filter_view U P
      (.filt (itOf (chain_addr ps).member U (seek (allp (P :: U.preds)) S 0)) (chain_addr ps)) e,
    t2 ++ tl, t3 ++ tl, h, ?_, ?_, ?_⟩
  · simp only [traverse, hb, hcend, hl]
  · simp only [traverse, hb3, hcend, hl]
  · rw [← filter_drop_seek _ S _ 0 (le_refl _), List.drop_zero]
    simp only [view.preds] at hp
    rw [hp]
    exact List.filter_congr (fun x _ => allp_reverse (p :: ps) x)

end MinimalViews
